import Mathlib

/-!
Verification of the tag-indexed image gallery logic of `src/datcure.py`
(class `DatCureApp`).

Embedding conventions:
* Python `dict`s keyed by strings become association lists
  (`List (String × _)`); insertion appends at the end, as dicts preserve
  insertion order, and lookup returns the first matching entry.
* Python `set`s become lists read only up to membership.
* The `defaultdict(int)` used for `tag_frequency` gets an explicit
  read operation that inserts a zero entry when the key is missing,
  exactly as reading a missing key of a `defaultdict` does.
* Filesystem effects (caption files written by `save_caption_file`,
  names present in a copy/move destination directory) are modelled as
  explicit values threaded through the functions that touch them.
* Counts are `Nat`: the source guards every decrement of
  `tag_frequency` by `> 0`, so no subtraction below zero occurs.
-/

namespace DatCure

/-- Association-list lookup: first entry with the given key
(Python dict lookup / `dict.get`). -/
def alookup {β : Type} : List (String × β) → String → Option β
  | [], _ => none
  | (k, v) :: rest, key => if k = key then some v else alookup rest key

/-- The keys of an association list (Python `dict.keys()`). -/
def akeys {β : Type} (l : List (String × β)) : List String := l.map (·.1)

/-- Set the value at a key: overwrite the first entry with that key in
place, or append a new entry at the end (Python `d[k] = v`). -/
def aset {β : Type} : List (String × β) → String → β → List (String × β)
  | [], k, v => [(k, v)]
  | (a, b) :: rest, k, v =>
    if a = k then (k, v) :: rest else (a, b) :: aset rest k v

/-- Delete the first entry with the given key (Python `del d[k]` /
`dict.pop`; keys are unique in every reachable state). -/
def adel {β : Type} : List (String × β) → String → List (String × β)
  | [], _ => []
  | (a, b) :: rest, k => if a = k then rest else (a, b) :: adel rest k

/-- Remove the first occurrence of an element (Python `list.remove`). -/
def eraseFirst : List String → String → List String
  | [], _ => []
  | a :: rest, x => if a = x then rest else a :: eraseFirst rest x

/-- Add an element to a list treated as a set (Python `set.add`). -/
def setAdd (l : List String) (x : String) : List String :=
  if x ∈ l then l else l ++ [x]

/-- Remove an element from a list treated as a set (Python `set.discard`). -/
def setDiscard (l : List String) (x : String) : List String :=
  l.filter (fun a => ¬ a = x)

/-- Python `captions.get(image_path, [])`. -/
def capGet (caps : List (String × List String)) (img : String) : List String :=
  (alookup caps img).getD []

/-- Reading `tag_frequency[t]` through the defaultdict without insertion
(used where the key is known to be present, and to state specifications). -/
def fget (freq : List (String × Nat)) (t : String) : Nat :=
  (alookup freq t).getD 0

/-- Reading `tag_frequency[t]` as `defaultdict(int)` does: returns the
stored value, inserting a fresh zero entry when the key is missing. -/
def freqRead (freq : List (String × Nat)) (t : String) :
    Nat × List (String × Nat) :=
  match alookup freq t with
  | some v => (v, freq)
  | none => (0, freq ++ [(t, 0)])

/-- Number of caption entries whose tag list contains `t`. -/
def countCap (caps : List (String × List String)) (t : String) : Nat :=
  caps.countP (fun p => decide (t ∈ p.2))

/-- Number of images (in a given catalog list) whose caption contains `t`. -/
def countImages (caps : List (String × List String)) (imgs : List String)
    (t : String) : Nat :=
  imgs.countP (fun i => decide (t ∈ capGet caps i))

/-! ### Path helpers (`os.path.basename`, `os.path.splitext`) -/

/-- Index of the last occurrence of a character. -/
def lastIndexOf (c : Char) : List Char → Option Nat
  | [] => none
  | a :: rest =>
    match lastIndexOf c rest with
    | some i => some (i + 1)
    | none => if a = c then some 0 else none

/-- Model of `os.path.basename` for POSIX paths: everything after the last `/`. -/
def basename (p : String) : String :=
  match lastIndexOf '/' p.toList with
  | some i => String.mk (p.toList.drop (i + 1))
  | none => p

/-- Model of `os.path.splitext` for POSIX paths: split at the last dot of the
base name, unless every character of the base name before that dot is
itself a dot (so `.txt`-style dotfiles have no extension). -/
def splitExtPath (p : String) : String × String :=
  let cs := p.toList
  let baseStart :=
    match lastIndexOf '/' cs with
    | some i => i + 1
    | none => 0
  match lastIndexOf '.' cs with
  | none => (p, "")
  | some d =>
    if ((cs.drop baseStart).take (d - baseStart)).any (fun c => ¬ c = '.') then
      (String.mk (cs.take d), String.mk (cs.drop d))
    else (p, "")

/-- Path of the sibling caption file:
`os.path.splitext(image_path)[0] + ".txt"`. -/
def captionPath (p : String) : String :=
  (splitExtPath p).1 ++ ".txt"

/-! ### Application state

The mutable fields of `DatCureApp` that the core logic touches, plus
`caption_files`, the contents of the on-disk caption files written by
`save_caption_file` (keyed by caption-file path). -/

structure AppState where
  images : List String
  captions : List (String × List String)
  tag_frequency : List (String × Nat)
  all_tags : List String
  selected_images : List String
  filtered_images : List String
  filter_active : Bool
  filter_mode : String
  focus_image_path : Option String
  caption_files : List (String × String)
deriving Repr, DecidableEq

/-- Model of `save_caption_file`: write `", ".join(tags)` to the sibling caption
file of `image_path` (the in-memory state is the source of truth; an I/O
failure would leave the in-memory state unchanged, which this model's
caller-visible fields do not observe). -/
def save_caption_file (s : AppState) (imagePath : String) : AppState :=
  let content := String.intercalate ", " (capGet s.captions imagePath)
  { s with caption_files := aset s.caption_files (captionPath imagePath) content }

/-- Body of the loop of `add_tag_to_selected` for one selected image:
if the tag is not already in the image's caption, append it, bump
`tag_frequency[new_tag]`, add it to `all_tags`, and persist the caption. -/
def addTagOne (s : AppState) (img tag : String) : AppState :=
  if tag ∈ capGet s.captions img then s
  else
    save_caption_file
      { s with captions := aset s.captions img (capGet s.captions img ++ [tag]),
               tag_frequency :=
                 aset (freqRead s.tag_frequency tag).2 tag
                   ((freqRead s.tag_frequency tag).1 + 1),
               all_tags := setAdd s.all_tags tag } img

/-- Model of `add_tag_to_selected`: here `new_tag` is the already-stripped text of the
input field; the operation runs only when it is nonempty and some images
are selected. -/
def add_tag_to_selected (s : AppState) (new_tag : String) : AppState :=
  if ¬ new_tag = "" ∧ ¬ s.selected_images = [] then
    s.selected_images.foldl (fun st img => addTagOne st img new_tag) s
  else s

/-- Body of the loop of `remove_tag_from_selected` for one selected
image: if the tag is present, remove it from the caption, decrement
`tag_frequency` (reading through the defaultdict), delete the entry and
discard the tag from `all_tags` when the count reaches zero, and persist
the caption. -/
def removeTagOne (s : AppState) (img tag : String) : AppState :=
  if tag ∈ capGet s.captions img then
    save_caption_file
      (if 0 < (freqRead s.tag_frequency tag).1 then
        if (freqRead s.tag_frequency tag).1 - 1 = 0 then
          { s with captions :=
                     aset s.captions img (eraseFirst (capGet s.captions img) tag),
                   tag_frequency :=
                     adel (aset (freqRead s.tag_frequency tag).2 tag
                       ((freqRead s.tag_frequency tag).1 - 1)) tag,
                   all_tags := setDiscard s.all_tags tag }
        else
          { s with captions :=
                     aset s.captions img (eraseFirst (capGet s.captions img) tag),
                   tag_frequency :=
                     aset (freqRead s.tag_frequency tag).2 tag
                       ((freqRead s.tag_frequency tag).1 - 1) }
      else
        { s with captions :=
                   aset s.captions img (eraseFirst (capGet s.captions img) tag),
                 tag_frequency := (freqRead s.tag_frequency tag).2 }) img
  else s

/-- Model of `remove_tag_from_selected`, with `tag_to_remove` already stripped. -/
def remove_tag_from_selected (s : AppState) (tag_to_remove : String) : AppState :=
  if ¬ tag_to_remove = "" ∧ ¬ s.selected_images = [] then
    s.selected_images.foldl (fun st img => removeTagOne st img tag_to_remove) s
  else s

/-! ### Filtering (`filter_images`, `ignore_tags`, `clear_filter`) -/

/-- Model of `filter_images`: the tags recovered from the selected items of the
tag-list widget are passed as `selected_tags`; with none selected the
method returns early and changes nothing.  `Inclusive` keeps an image
when any selected tag is in its caption, any other mode keeps it when
all selected tags are. -/
def filter_images (s : AppState) (selected_tags : List String) : AppState :=
  if selected_tags = [] then s
  else
    let fi := s.images.filter (fun img =>
      let image_tags := capGet s.captions img
      if s.filter_mode = "Inclusive" then
        selected_tags.any (fun t => decide (t ∈ image_tags))
      else
        selected_tags.all (fun t => decide (t ∈ image_tags)))
    { s with filtered_images := fi, filter_active := true }

/-- Model of `ignore_tags`: keep the images whose caption contains none of the
selected tags; with none selected the method returns early. -/
def ignore_tags (s : AppState) (selected_tags : List String) : AppState :=
  if selected_tags = [] then s
  else
    let fi := s.images.filter (fun img =>
      ¬ selected_tags.any (fun t => decide (t ∈ capGet s.captions img)))
    { s with filtered_images := fi, filter_active := true }

/-- Model of `clear_filter`. -/
def clear_filter (s : AppState) : AppState :=
  { s with filter_active := false, filtered_images := [] }

/-- The image list the gallery displays (`update_gallery` /
`populate_gallery` argument selection). -/
def update_gallery (s : AppState) : List String :=
  if s.filter_active then s.filtered_images else s.images

/-! ### Selection (`image_clicked`, `select_all_images`,
`deselect_all_images`, `invert_selection`) -/

/-- The image sequence selection operations act over: the filtered view
while a filter is active, the full catalog otherwise. -/
def activeView (s : AppState) : List String :=
  if s.filter_active then s.filtered_images else s.images

/-- Symmetric difference of two lists read as sets
(Python `set.symmetric_difference`). -/
def symmDiffList (a b : List String) : List String :=
  a.filter (fun x => decide (x ∉ b)) ++ b.filter (fun x => decide (x ∉ a))

/-- Selection part of `image_clicked`: toggle membership of the clicked
image. -/
def image_clicked (s : AppState) (img : String) : AppState :=
  if img ∈ s.selected_images then
    { s with selected_images := eraseFirst s.selected_images img }
  else
    { s with selected_images := s.selected_images ++ [img] }

/-- Model of `select_all_images`: select the filtered view when a filter is
active, the whole catalog otherwise. -/
def select_all_images (s : AppState) : AppState :=
  if s.filter_active then { s with selected_images := s.filtered_images }
  else { s with selected_images := s.images }

/-- Model of `deselect_all_images`. -/
def deselect_all_images (s : AppState) : AppState :=
  { s with selected_images := [] }

/-- Model of `invert_selection`: symmetric difference of the current selection
against the active view. -/
def invert_selection (s : AppState) : AppState :=
  if s.filter_active then
    { s with selected_images := symmDiffList s.filtered_images s.selected_images }
  else
    { s with selected_images := symmDiffList s.images s.selected_images }

/-! ### Tag sorting in the focus window (`sort_tags_high`, `sort_tags_low`)

Python's `sorted` is a stable sort by the key tuple; a stable sort with
respect to a total preorder has a unique result, so `List.insertionSort`
with the corresponding relation computes the same list. -/

/-- Lexicographic comparison of character lists by code point: exactly
Python's `<=` on strings. -/
def charListLe : List Char → List Char → Bool
  | [], _ => true
  | _ :: _, [] => false
  | a :: as, b :: bs => if a = b then charListLe as bs else decide (a < b)

/-- Python `<=` on tag strings (code-point lexicographic). -/
def strLe (a b : String) : Prop := charListLe a.toList b.toList = true

instance : DecidableRel strLe := fun a b => by unfold strLe; infer_instance

/-- Order used by `sort_tags_low`: ascending by the key
`(tag_frequency.get(t, 0), t)`. -/
def keyOrderLow (freq : List (String × Nat)) (a b : String) : Prop :=
  fget freq a < fget freq b ∨ (fget freq a = fget freq b ∧ strLe a b)

/-- Order used by `sort_tags_high`: ascending by the key
`(-tag_frequency.get(t, 0), t)`, i.e. frequency descending with ties
broken by the tag string ascending. -/
def keyOrderHigh (freq : List (String × Nat)) (a b : String) : Prop :=
  fget freq b < fget freq a ∨ (fget freq a = fget freq b ∧ strLe a b)

instance (freq : List (String × Nat)) : DecidableRel (keyOrderLow freq) :=
  fun a b => by unfold keyOrderLow; infer_instance

instance (freq : List (String × Nat)) : DecidableRel (keyOrderHigh freq) :=
  fun a b => by unfold keyOrderHigh; infer_instance

/-- Model of `sort_tags_high`: when an image is focused and has a caption entry,
re-sort its tags by frequency descending (ties alphabetical), store the
new order, and persist it to the caption file. -/
def sort_tags_high (s : AppState) : AppState :=
  match s.focus_image_path with
  | none => s
  | some p =>
    if ¬ p = "" ∧ p ∈ akeys s.captions then
      let sorted := List.insertionSort (keyOrderHigh s.tag_frequency) (capGet s.captions p)
      let s1 : AppState := { s with captions := aset s.captions p sorted }
      save_caption_file s1 p
    else s

/-- Model of `sort_tags_low`: as `sort_tags_high` but ascending. -/
def sort_tags_low (s : AppState) : AppState :=
  match s.focus_image_path with
  | none => s
  | some p =>
    if ¬ p = "" ∧ p ∈ akeys s.captions then
      let sorted := List.insertionSort (keyOrderLow s.tag_frequency) (capGet s.captions p)
      let s1 : AppState := { s with captions := aset s.captions p sorted }
      save_caption_file s1 p
    else s

/-! ### Relocation (`copy_selection`, `move_selection`)

The destination directory is modelled by the list of file names present
in it; `shutil.copy2`/`shutil.move` of a file make its destination name
exist (replacing silently if it already does).  Per-image success of the
image move/copy is abstracted by a predicate `ok` (an exception makes
the loop `continue`), and existence of the source caption file by
`hasCap`. -/

/-- A name enters the destination directory (idempotent on names). -/
def insertName (dest : List String) (nm : String) : List String :=
  if nm ∈ dest then dest else dest ++ [nm]

/-- The candidate name `f"{root}_{i}{ext}"` tried by the collision loop. -/
def candName (root extn : String) (i : Nat) : String :=
  root ++ "_" ++ toString i ++ extn

/-- The collision loop: starting at index `i`, return the first
candidate name not present at the destination.  The Python `while` loop
always terminates because only finitely many names exist at the
destination; `fuel` makes that termination explicit and
`resolveFree` below always supplies enough. -/
def findFree (dest : List String) (root extn : String) : Nat → Nat → String
  | i, 0 => candName root extn i
  | i, fuel + 1 =>
    let nm := candName root extn i
    if nm ∈ dest then findFree dest root extn (i + 1) fuel else nm

/-- Destination name chosen for a base name: the base name itself when
free, otherwise `_<n>` appended before the extension, `n` counting up
from 1 until free. -/
def resolveName (dest : List String) (base root extn : String) : String :=
  if base ∈ dest then findFree dest root extn 1 (dest.length + 1) else base

/-- The two destination names chosen for one image: the collision-resolved
image name, and (when a source caption file exists) the caption name
derived from the image's resolved base name plus `.txt`. -/
def destNamesFor (dest : List String) (img : String) (hasCap : Bool) :
    String × Option String :=
  let base := basename img
  let se := splitExtPath base
  let nm := resolveName dest base se.1 se.2
  (nm, if hasCap then some ((splitExtPath nm).1 ++ ".txt") else none)

/-- Filesystem effect of relocating one image (shared by copy and move):
the resolved image name and then, if present, the caption name enter the
destination. -/
def relocOneFs (dest : List String) (img : String) (hasCap : Bool) : List String :=
  let names := destNamesFor dest img hasCap
  let dest1 := insertName dest names.1
  match names.2 with
  | some capName => insertName dest1 capName
  | none => dest1

/-- Model of `copy_selection`: iterate over the selected images, copying each
image and its caption file to the destination with collision-resolved
names.  No application state is mutated.  `ok img = false` models
`shutil.copy2` raising (the loop reports and continues). -/
def copy_selection (s : AppState) (ok hasCap : String → Bool) (dest : List String) :
    AppState × List String :=
  if s.selected_images = [] then (s, dest)
  else
    let destF := s.selected_images.foldl
      (fun d img => if ok img then relocOneFs d img (hasCap img) else d) dest
    (s, destF)

/-- State reconciliation of `move_selection` for one successfully moved
image: drop it from `images`, pop its caption entry, and decrement
`tag_frequency` once per tag it carried, deleting entries that reach
zero. -/
def decTag (freq : List (String × Nat)) (t : String) : List (String × Nat) :=
  if 0 < (freqRead freq t).1 then
    if (freqRead freq t).1 - 1 = 0 then
      adel (aset (freqRead freq t).2 t ((freqRead freq t).1 - 1)) t
    else aset (freqRead freq t).2 t ((freqRead freq t).1 - 1)
  else (freqRead freq t).2

/-- Removal of one moved image from the internal state
(`move_selection`, second loop): drop it from `images` if present, and
if it has a caption entry, pop that entry and fold the per-tag
decrement over its tags.  (The image removal touches neither the
captions nor the guard, so the two guarded mutations of the source are
combined into one conditional per field.) -/
def removeImageState (s : AppState) (img : String) : AppState :=
  if img ∈ akeys s.captions then
    { s with images := if img ∈ s.images then eraseFirst s.images img else s.images,
             captions := adel s.captions img,
             tag_frequency := (capGet s.captions img).foldl decTag s.tag_frequency }
  else
    { s with images := if img ∈ s.images then eraseFirst s.images img else s.images }

/-- Reconciliation loop of `move_selection` over the list
`images_to_remove` (exactly the successfully moved images, in
iteration order), followed by `all_tags = set(tag_frequency.keys())`,
clearing the selection and resetting the filter. -/
def moveReconcile (s : AppState) (toRemove : List String) : AppState :=
  { toRemove.foldl removeImageState s with
      all_tags := akeys (toRemove.foldl removeImageState s).tag_frequency,
      selected_images := [],
      filter_active := false,
      filtered_images := [] }

/-- Model of `move_selection`: move each selected image (and its caption file)
to the destination with collision-resolved names (the filesystem fold;
a failed move contributes nothing), then reconcile the internal state
for the successfully moved images — `images_to_remove` is exactly
`[img for img in selected if ok img]`. -/
def move_selection (s : AppState) (ok hasCap : String → Bool) (dest : List String) :
    AppState × List String :=
  if s.selected_images = [] then (s, dest)
  else
    (moveReconcile s (s.selected_images.filter ok),
     s.selected_images.foldl
       (fun d img => if ok img then relocOneFs d img (hasCap img) else d) dest)

/-! ### Caption files (`load_images_thread` read side, `save_caption_file`
write side), at character level

`", ".join(tags)` on write; `split(",")`, `str.strip`, drop empty on
read. -/

/-- Python `str.split(",")` at character level; `splitComma [] = [""]`
like `"".split(",") == [""]`. -/
def splitComma : List Char → List (List Char)
  | [] => [[]]
  | c :: cs =>
    if c = ',' then [] :: splitComma cs
    else
      match splitComma cs with
      | [] => [[c]]
      | s :: ss => (c :: s) :: ss

/-- Whitespace stripped by `str.strip` (the ASCII whitespace characters;
the tags exercised here contain no other Unicode whitespace). -/
def isSpaceChar (c : Char) : Bool :=
  c = ' ' ∨ c = '\t' ∨ c = '\n' ∨ c = '\r' ∨ c = '\x0b' ∨ c = '\x0c'

/-- Python `str.strip` at character level. -/
def stripChars (cs : List Char) : List Char :=
  ((cs.dropWhile isSpaceChar).reverse.dropWhile isSpaceChar).reverse

/-- Caption read:
`[tag.strip() for tag in content.split(",") if tag.strip()]`. -/
def readTags (content : List Char) : List (List Char) :=
  ((splitComma content).map stripChars).filter (fun t => ¬ t = [])

/-- Caption write: `", ".join(tags)`. -/
def writeTags : List (List Char) → List Char
  | [] => []
  | [t] => t
  | t :: rest => t ++ (',' :: ' ' :: writeTags rest)

/-! ### Directory loading (`load_images_thread`)

The filesystem below a directory is a tree carrying, for each
directory, its file names and named subdirectories in the order the
operating system lists them; `os.walk` visits top-down, a directory's
files before its subdirectories, subdirectories in listed order. -/

inductive FsTree where
  | node (files : List String) (subs : List (String × FsTree))

mutual

/-- Model of `os.walk`: the `(root, files)` pairs in visiting order. -/
def walkFiles (path : String) : FsTree → List (String × List String)
  | .node files subs => (path, files) :: walkSubs path subs

def walkSubs (path : String) : List (String × FsTree) → List (String × List String)
  | [] => []
  | (n, t) :: rest => walkFiles (path ++ "/" ++ n) t ++ walkSubs path rest

end

/-- The tuple `(".png", ".jpg", ".jpeg", ".bmp", ".gif")`. -/
def image_extensions : List String := [".png", ".jpg", ".jpeg", ".bmp", ".gif"]

/-- Python `file.lower()` (ASCII lowering; extensions are ASCII). -/
def lowerStr (s : String) : String := String.mk (s.toList.map Char.toLower)

/-- Python `file.lower().endswith(image_extensions)`. -/
def isImageFile (f : String) : Bool :=
  image_extensions.any (fun e => List.isSuffixOf e.toList (lowerStr f).toList)

/-- Model of `load_images_thread`: walk the whole tree below `dir_path` —
unconditionally recursively; the function takes no
include-subdirectories input because the source consults none — and
collect `os.path.join(root, file)` for every file matching an image
extension, in walk order. -/
def load_images_thread (dir_path : String) (t : FsTree) : List String :=
  (walkFiles dir_path t).flatMap
    (fun rf => (rf.2.filter isImageFile).map (fun f => rf.1 ++ "/" ++ f))

/-! ### Load concurrency (`load_images` / worker result delivery)

`load_images` resets the catalog state and starts a `Worker` whose
`result` signal is connected to `populate_gallery`; nothing records
which load is newest, so every worker's completion populates the
gallery with that worker's image list.  A trace interleaves load
requests and worker completions. -/

inductive LoadEvent where
  | request (id : Nat)
  | workerDone (id : Nat) (result : List String)

structure LoadUiState where
  gallery : List String
  appliedLoads : List Nat
deriving Repr, DecidableEq

/-- One event: a request (`load_images`) resets the catalog fields but
shows nothing yet; a worker completion delivers its result through the
`result` signal straight into `populate_gallery`, with no check that a
newer load has superseded it. -/
def loadStep (m : LoadUiState) : LoadEvent → LoadUiState
  | .request _ => m
  | .workerDone id result =>
    { gallery := result, appliedLoads := m.appliedLoads ++ [id] }

def runLoadTrace (events : List LoadEvent) : LoadUiState :=
  events.foldl loadStep { gallery := [], appliedLoads := [] }

/-! ### The consistency invariant tying captions, frequency index,
`all_tags`, catalog and selection together -/

/-- Well-formedness of the captions dict: unique image keys, and no
duplicate tag inside one caption (tag insertion is guarded by a
membership test). -/
def CapsOk (caps : List (String × List String)) : Prop :=
  (akeys caps).Nodup ∧ ∀ p ∈ caps, (p.2 : List String).Nodup

/-- The frequency index matches the captions: unique tag keys, every
stored count is the exact number of captions containing the tag and is
nonzero, and every tag occurring in some caption has an entry. -/
def FreqOk (caps : List (String × List String))
    (freq : List (String × Nat)) : Prop :=
  (akeys freq).Nodup ∧
  (∀ p ∈ freq, p.2 = countCap caps p.1 ∧ ¬ p.2 = 0) ∧
  (∀ p ∈ caps, ∀ t ∈ p.2, t ∈ akeys freq)

/-- Predicate: `all_tags` holds exactly the keys of the frequency index. -/
def TagsOk (freq : List (String × Nat)) (tags : List String) : Prop :=
  (∀ t ∈ tags, t ∈ akeys freq) ∧ (∀ p ∈ freq, p.1 ∈ tags)

/-- Catalog/captions/selection coherence: unique image paths, captions
keyed exactly by the catalog images, selection inside the catalog. -/
def ImgsOk (s : AppState) : Prop :=
  s.images.Nodup ∧
  (∀ p ∈ s.captions, p.1 ∈ s.images) ∧
  (∀ i ∈ s.images, i ∈ akeys s.captions) ∧
  (∀ i ∈ s.selected_images, i ∈ s.images)

/-- The full state invariant, established by a directory load and
preserved by every mutation. -/
def Inv (s : AppState) : Prop :=
  CapsOk s.captions ∧ FreqOk s.captions s.tag_frequency ∧
  TagsOk s.tag_frequency s.all_tags ∧ ImgsOk s

instance (s : AppState) : Decidable (Inv s) := by
  unfold Inv CapsOk FreqOk TagsOk ImgsOk
  infer_instance

/-- The statement of the C1 property for a single state: the frequency
of every tag is the number of catalog images whose caption contains it,
no stored count is zero, and `all_tags` holds exactly the tags with
positive count. -/
def FreqSpec (s : AppState) : Prop :=
  (∀ t, fget s.tag_frequency t = countImages s.captions s.images t) ∧
  (∀ p ∈ s.tag_frequency, ¬ p.2 = 0) ∧
  (∀ t, t ∈ s.all_tags ↔ 0 < countImages s.captions s.images t)

/-! ### Arbitrary sequences of tag-edit operations -/

inductive TagOp where
  | add (input : String)
  | remove (input : String)
deriving Repr, DecidableEq

def applyTagOp (s : AppState) : TagOp → AppState
  | .add input => add_tag_to_selected s input
  | .remove input => remove_tag_from_selected s input

def applyTagOps (s : AppState) (ops : List TagOp) : AppState :=
  ops.foldl applyTagOp s

/-! ### Concrete states used by witnesses and counterexamples -/

/-- The state after loading a directory with `a.jpg` captioned "x, y",
`b.jpg` with no caption file, both images selected. -/
def exampleLoadedState : AppState where
  images := ["/d/a.jpg", "/d/b.jpg"]
  captions := [("/d/a.jpg", ["x", "y"]), ("/d/b.jpg", [])]
  tag_frequency := [("x", 1), ("y", 1)]
  all_tags := ["x", "y"]
  selected_images := ["/d/a.jpg", "/d/b.jpg"]
  filtered_images := []
  filter_active := false
  filter_mode := "Inclusive"
  focus_image_path := none
  caption_files := [("/d/a.txt", "x, y")]

/-- State with an active filtered view, used to exhibit the empty
chosen-tag-set early return of `filter_images`. -/
def c3FilterState : AppState where
  images := ["/d/a.jpg"]
  captions := [("/d/a.jpg", [])]
  tag_frequency := []
  all_tags := []
  selected_images := []
  filtered_images := ["/d/a.jpg"]
  filter_active := true
  filter_mode := "Inclusive"
  focus_image_path := none
  caption_files := []

/-- Freshly loaded state used for the C8 counterexample: `a.jpg`
carries tag "t", `b.jpg` carries none. -/
def c8SelState : AppState where
  images := ["/d/a.jpg", "/d/b.jpg"]
  captions := [("/d/a.jpg", ["t"]), ("/d/b.jpg", [])]
  tag_frequency := [("t", 1)]
  all_tags := ["t"]
  selected_images := []
  filtered_images := []
  filter_active := false
  filter_mode := "Inclusive"
  focus_image_path := none
  caption_files := []

/-- The ordering the claim's words describe for the descending
direction: the key `(frequency, tag)` compared lexicographically,
descending — so frequency ties are broken by the tag string
descending.  Used only to compare the claim against the code, which
breaks ties ascending. -/
def keyOrderDescLex (freq : List (String × Nat)) (a b : String) : Prop :=
  fget freq b < fget freq a ∨ (fget freq a = fget freq b ∧ strLe b a)

instance (freq : List (String × Nat)) : DecidableRel (keyOrderDescLex freq) :=
  fun a b => by unfold keyOrderDescLex; infer_instance

/-- Focused state for the C9 counterexample: caption `["b", "a"]`, both
tags of frequency 1. -/
def c9FocusState : AppState where
  images := ["/x/f.png"]
  captions := [("/x/f.png", ["b", "a"])]
  tag_frequency := [("a", 1), ("b", 1)]
  all_tags := ["a", "b"]
  selected_images := []
  filtered_images := []
  filter_active := false
  filter_mode := "Inclusive"
  focus_image_path := some "/x/f.png"
  caption_files := []

/-- The frequency map matches an abstract count function: unique keys,
every entry stores the exact nonzero count, every tag of nonzero count
has an entry. -/
def FreqMatch (freq : List (String × Nat)) (f : String → Nat) : Prop :=
  (akeys freq).Nodup ∧
  (∀ p ∈ freq, p.2 = f p.1 ∧ ¬ p.2 = 0) ∧
  (∀ t, ¬ f t = 0 → t ∈ akeys freq)

/-- The part of the invariant that survives while the move loop is
mid-way through removing images (the selection and `all_tags` are
reconciled only at the end). -/
def Inv0 (s : AppState) : Prop :=
  CapsOk s.captions ∧ FreqOk s.captions s.tag_frequency ∧
  s.images.Nodup ∧ (∀ p ∈ s.captions, p.1 ∈ s.images) ∧
  (∀ i ∈ s.images, i ∈ akeys s.captions)

/-- C4 counterexample state: two selected images, each carrying one
tag. -/
def c4MoveState : AppState where
  images := ["/d/a.jpg", "/d/b.jpg"]
  captions := [("/d/a.jpg", ["rare"]), ("/d/b.jpg", ["x"])]
  tag_frequency := [("rare", 1), ("x", 1)]
  all_tags := ["rare", "x"]
  selected_images := ["/d/a.jpg", "/d/b.jpg"]
  filtered_images := []
  filter_active := false
  filter_mode := "Inclusive"
  focus_image_path := none
  caption_files := [("/d/a.txt", "rare"), ("/d/b.txt", "x")]

/-- Two images both named `cat.png`, from different source
directories, both with caption files, both selected. -/
def c5TwoCatsState : AppState where
  images := ["/d1/cat.png", "/d2/cat.png"]
  captions := [("/d1/cat.png", ["t"]), ("/d2/cat.png", ["u"])]
  tag_frequency := [("t", 1), ("u", 1)]
  all_tags := ["t", "u"]
  selected_images := ["/d1/cat.png", "/d2/cat.png"]
  filtered_images := []
  filter_active := false
  filter_mode := "Inclusive"
  focus_image_path := none
  caption_files := [("/d1/cat.txt", "t"), ("/d2/cat.txt", "u")]

/-- Filesystem for C6: the top directory holds `top.png` and a
non-image file; the subdirectory `sub` holds `a.PNG`. -/
def c6Tree : FsTree := .node ["top.png", "note.txt"] [("sub", .node ["a.PNG"] [])]

/-! ### Association-list lemmas -/

theorem akeys_nil {β : Type} : akeys ([] : List (String × β)) = [] := rfl

theorem akeys_cons {β : Type} (p : String × β) (l : List (String × β)) :
    akeys (p :: l) = p.1 :: akeys l := rfl

theorem akeys_append {β : Type} (l₁ l₂ : List (String × β)) :
    akeys (l₁ ++ l₂) = akeys l₁ ++ akeys l₂ := by
  simp [akeys]

theorem alookup_eq_none_iff {β : Type} (l : List (String × β)) (k : String) :
    alookup l k = none ↔ k ∉ akeys l := by
  induction l with
  | nil => simp [alookup, akeys]
  | cons p rest ih =>
    obtain ⟨a, b⟩ := p
    by_cases h : a = k
    · subst h
      simp [alookup, akeys_cons]
    · have h2 : ¬ k = a := fun he => h he.symm
      simp [alookup, akeys_cons, h, h2, ih]

theorem mem_of_alookup_eq_some {β : Type} {l : List (String × β)} {k : String}
    {v : β} (h : alookup l k = some v) : (k, v) ∈ l := by
  induction l with
  | nil => simp [alookup] at h
  | cons p rest ih =>
    obtain ⟨a, b⟩ := p
    by_cases ha : a = k
    · subst ha
      simp [alookup] at h
      subst h
      exact List.mem_cons_self _ _
    · simp [alookup, ha] at h
      exact List.mem_cons_of_mem _ (ih h)

theorem mem_akeys_of_alookup_eq_some {β : Type} {l : List (String × β)}
    {k : String} {v : β} (h : alookup l k = some v) : k ∈ akeys l :=
  List.mem_map_of_mem _ (mem_of_alookup_eq_some h)

theorem alookup_isSome_of_mem_akeys {β : Type} {l : List (String × β)}
    {k : String} (h : k ∈ akeys l) : ∃ v, alookup l k = some v := by
  cases hl : alookup l k with
  | none => exact absurd h ((alookup_eq_none_iff l k).mp hl)
  | some v => exact ⟨v, rfl⟩

theorem alookup_of_mem_of_nodup {β : Type} {l : List (String × β)}
    (hn : (akeys l).Nodup) {p : String × β} (hp : p ∈ l) :
    alookup l p.1 = some p.2 := by
  induction l with
  | nil => simp at hp
  | cons q rest ih =>
    obtain ⟨a, b⟩ := q
    rw [akeys_cons, List.nodup_cons] at hn
    rcases List.mem_cons.mp hp with h | h
    · subst h
      simp [alookup]
    · have hne : ¬ a = p.1 := by
        intro he
        have hmem : p.1 ∈ akeys rest := List.mem_map_of_mem (fun x => x.1) h
        rw [← he] at hmem
        exact hn.1 hmem
      rw [alookup, if_neg hne]
      exact ih hn.2 h

theorem alookup_aset_self {β : Type} (l : List (String × β)) (k : String) (v : β) :
    alookup (aset l k v) k = some v := by
  induction l with
  | nil => simp [aset, alookup]
  | cons p rest ih =>
    obtain ⟨a, b⟩ := p
    by_cases h : a = k
    · subst h
      simp [aset, alookup]
    · simp [aset, alookup, h, ih]

theorem alookup_aset_ne {β : Type} (l : List (String × β)) {k k' : String}
    (v : β) (h : ¬ k' = k) : alookup (aset l k v) k' = alookup l k' := by
  have h' : ¬ k = k' := fun he => h he.symm
  induction l with
  | nil => simp [aset, alookup, h']
  | cons p rest ih =>
    obtain ⟨a, b⟩ := p
    by_cases ha : a = k
    · subst ha
      simp [aset, alookup, h']
    · simp [aset, alookup, ha, ih]

theorem aset_eq_append {β : Type} {l : List (String × β)} {k : String}
    (h : alookup l k = none) (v : β) : aset l k v = l ++ [(k, v)] := by
  induction l with
  | nil => simp [aset]
  | cons p rest ih =>
    obtain ⟨a, b⟩ := p
    by_cases ha : a = k
    · simp [alookup, ha] at h
    · simp [alookup, ha] at h
      simp [aset, ha, ih h]

theorem akeys_aset_of_mem {β : Type} {l : List (String × β)} {k : String}
    (h : k ∈ akeys l) (v : β) : akeys (aset l k v) = akeys l := by
  induction l with
  | nil => simp [akeys] at h
  | cons p rest ih =>
    obtain ⟨a, b⟩ := p
    by_cases ha : a = k
    · subst ha
      rw [aset, if_pos rfl]
      rfl
    · rw [aset, if_neg ha]
      have hk : k ∈ akeys rest := by
        rcases List.mem_cons.mp (by simpa [akeys_cons] using h) with he | hk
        · exact absurd he.symm ha
        · exact hk
      rw [akeys_cons, akeys_cons, ih hk]

theorem akeys_aset_of_not_mem {β : Type} {l : List (String × β)} {k : String}
    (h : k ∉ akeys l) (v : β) : akeys (aset l k v) = akeys l ++ [k] := by
  have hl : alookup l k = none := (alookup_eq_none_iff l k).mpr h
  rw [aset_eq_append hl, akeys_append]
  rfl

theorem mem_akeys_aset_self {β : Type} (l : List (String × β)) (k : String)
    (v : β) : k ∈ akeys (aset l k v) :=
  mem_akeys_of_alookup_eq_some (alookup_aset_self l k v)

theorem mem_akeys_aset_iff {β : Type} (l : List (String × β)) (k t : String)
    (v : β) : t ∈ akeys (aset l k v) ↔ t = k ∨ t ∈ akeys l := by
  by_cases h : k ∈ akeys l
  · rw [akeys_aset_of_mem h]
    constructor
    · exact Or.inr
    · rintro (rfl | ht)
      · exact h
      · exact ht
  · rw [akeys_aset_of_not_mem h]
    simp [or_comm]

theorem mem_aset_iff_of_nodup {β : Type} {l : List (String × β)}
    (hn : (akeys l).Nodup) (k : String) (v : β) (p : String × β) :
    p ∈ aset l k v ↔ p = (k, v) ∨ (p ∈ l ∧ ¬ p.1 = k) := by
  induction l with
  | nil =>
    constructor
    · intro hp
      rcases List.mem_singleton.mp hp with rfl
      exact Or.inl rfl
    · rintro (rfl | ⟨hp, _⟩)
      · exact List.mem_singleton.mpr rfl
      · simp at hp
  | cons q rest ih =>
    obtain ⟨a, b⟩ := q
    rw [akeys_cons, List.nodup_cons] at hn
    by_cases ha : a = k
    · subst ha
      rw [aset, if_pos rfl]
      constructor
      · intro hp
        rcases List.mem_cons.mp hp with rfl | hp2
        · exact Or.inl rfl
        · have hne : ¬ p.1 = a := by
            intro he
            have hmem : p.1 ∈ akeys rest := List.mem_map_of_mem (fun x => x.1) hp2
            rw [he] at hmem
            exact hn.1 hmem
          exact Or.inr ⟨List.mem_cons_of_mem _ hp2, hne⟩
      · rintro (rfl | ⟨hp, hne⟩)
        · exact List.mem_cons_self _ _
        · rcases List.mem_cons.mp hp with rfl | hp2
          · exact absurd rfl hne
          · exact List.mem_cons_of_mem _ hp2
    · rw [aset, if_neg ha]
      constructor
      · intro hp
        rcases List.mem_cons.mp hp with rfl | hp2
        · exact Or.inr ⟨List.mem_cons_self _ _, ha⟩
        · rcases (ih hn.2).mp hp2 with rfl | ⟨hp3, hne⟩
          · exact Or.inl rfl
          · exact Or.inr ⟨List.mem_cons_of_mem _ hp3, hne⟩
      · rintro (rfl | ⟨hp, hne⟩)
        · exact List.mem_cons_of_mem _ ((ih hn.2).mpr (Or.inl rfl))
        · rcases List.mem_cons.mp hp with rfl | hp2
          · exact List.mem_cons_self _ _
          · exact List.mem_cons_of_mem _ ((ih hn.2).mpr (Or.inr ⟨hp2, hne⟩))

theorem adel_sublist {β : Type} (l : List (String × β)) (k : String) :
    List.Sublist (adel l k) l := by
  induction l with
  | nil => simp [adel]
  | cons p rest ih =>
    obtain ⟨a, b⟩ := p
    by_cases ha : a = k
    · rw [adel, if_pos ha]
      exact List.sublist_cons_self _ _
    · rw [adel, if_neg ha]
      exact List.Sublist.cons₂ _ ih

theorem mem_adel_iff_of_nodup {β : Type} {l : List (String × β)}
    (hn : (akeys l).Nodup) (k : String) (p : String × β) :
    p ∈ adel l k ↔ p ∈ l ∧ ¬ p.1 = k := by
  induction l with
  | nil => simp [adel]
  | cons q rest ih =>
    obtain ⟨a, b⟩ := q
    rw [akeys_cons, List.nodup_cons] at hn
    by_cases ha : a = k
    · subst ha
      rw [adel, if_pos rfl]
      constructor
      · intro hp
        have hne : ¬ p.1 = a := by
          intro he
          have hmem : p.1 ∈ akeys rest := List.mem_map_of_mem (fun x => x.1) hp
          rw [he] at hmem
          exact hn.1 hmem
        exact ⟨List.mem_cons_of_mem _ hp, hne⟩
      · rintro ⟨hp, hne⟩
        rcases List.mem_cons.mp hp with rfl | hp2
        · exact absurd rfl hne
        · exact hp2
    · rw [adel, if_neg ha]
      constructor
      · intro hp
        rcases List.mem_cons.mp hp with rfl | hp2
        · exact ⟨List.mem_cons_self _ _, ha⟩
        · have := (ih hn.2).mp hp2
          exact ⟨List.mem_cons_of_mem _ this.1, this.2⟩
      · rintro ⟨hp, hne⟩
        rcases List.mem_cons.mp hp with rfl | hp2
        · exact List.mem_cons_self _ _
        · exact List.mem_cons_of_mem _ ((ih hn.2).mpr ⟨hp2, hne⟩)

theorem akeys_adel_sublist {β : Type} (l : List (String × β)) (k : String) :
    List.Sublist (akeys (adel l k)) (akeys l) :=
  (adel_sublist l k).map _

theorem mem_akeys_adel_iff {β : Type} {l : List (String × β)}
    (hn : (akeys l).Nodup) (k t : String) :
    t ∈ akeys (adel l k) ↔ t ∈ akeys l ∧ ¬ t = k := by
  constructor
  · intro ht
    rcases List.mem_map.mp ht with ⟨p, hp, rfl⟩
    have := (mem_adel_iff_of_nodup hn k p).mp hp
    exact ⟨List.mem_map_of_mem _ this.1, this.2⟩
  · rintro ⟨ht, hne⟩
    rcases List.mem_map.mp ht with ⟨p, hp, rfl⟩
    exact List.mem_map_of_mem _ ((mem_adel_iff_of_nodup hn k p).mpr ⟨hp, hne⟩)

theorem eraseFirst_sublist (l : List String) (x : String) :
    List.Sublist (eraseFirst l x) l := by
  induction l with
  | nil => simp [eraseFirst]
  | cons a rest ih =>
    by_cases ha : a = x
    · rw [eraseFirst, if_pos ha]
      exact List.sublist_cons_self _ _
    · rw [eraseFirst, if_neg ha]
      exact List.Sublist.cons₂ _ ih

theorem mem_eraseFirst_of_ne {l : List String} {x y : String}
    (hne : ¬ x = y) : x ∈ eraseFirst l y ↔ x ∈ l := by
  induction l with
  | nil => simp [eraseFirst]
  | cons a rest ih =>
    by_cases ha : a = y
    · subst ha
      rw [eraseFirst, if_pos rfl]
      constructor
      · exact List.mem_cons_of_mem _
      · intro hx
        rcases List.mem_cons.mp hx with rfl | hx2
        · exact absurd rfl hne
        · exact hx2
    · rw [eraseFirst, if_neg ha]
      simp only [List.mem_cons, ih]

theorem not_mem_eraseFirst_self {l : List String} (hn : l.Nodup) (x : String) :
    x ∉ eraseFirst l x := by
  induction l with
  | nil => simp [eraseFirst]
  | cons a rest ih =>
    rcases List.nodup_cons.mp hn with ⟨hna, hnr⟩
    by_cases ha : a = x
    · subst ha
      rw [eraseFirst, if_pos rfl]
      exact hna
    · rw [eraseFirst, if_neg ha]
      intro hx
      rcases List.mem_cons.mp hx with rfl | hx2
      · exact ha rfl
      · exact ih hnr hx2

theorem mem_setAdd_iff (l : List String) (x t : String) :
    t ∈ setAdd l x ↔ t ∈ l ∨ t = x := by
  unfold setAdd
  by_cases h : x ∈ l
  · rw [if_pos h]
    constructor
    · exact Or.inl
    · rintro (ht | rfl)
      · exact ht
      · exact h
  · rw [if_neg h]
    simp [List.mem_append]

theorem mem_setDiscard_iff (l : List String) (x t : String) :
    t ∈ setDiscard l x ↔ t ∈ l ∧ ¬ t = x := by
  unfold setDiscard
  simp [List.mem_filter]

/-! ### Counting lemmas -/

theorem countCap_nil (t : String) : countCap [] t = 0 := rfl

theorem countCap_cons (p : String × List String)
    (caps : List (String × List String)) (t : String) :
    countCap (p :: caps) t = countCap caps t + (if t ∈ p.2 then 1 else 0) := by
  simp [countCap, List.countP_cons]

theorem countCap_append (c₁ c₂ : List (String × List String)) (t : String) :
    countCap (c₁ ++ c₂) t = countCap c₁ t + countCap c₂ t := by
  simp [countCap, List.countP_append]

theorem countCap_aset_absent {caps : List (String × List String)} {k : String}
    (h : alookup caps k = none) (v : List String) (t : String) :
    countCap (aset caps k v) t = countCap caps t + (if t ∈ v then 1 else 0) := by
  rw [aset_eq_append h, countCap_append, countCap_cons, countCap_nil]
  simp

theorem countCap_aset_congr {caps : List (String × List String)} {k : String}
    {b : List String} (h : alookup caps k = some b) {v : List String} {t : String}
    (hiff : t ∈ v ↔ t ∈ b) : countCap (aset caps k v) t = countCap caps t := by
  induction caps with
  | nil => simp [alookup] at h
  | cons q rest ih =>
    obtain ⟨a, c⟩ := q
    by_cases ha : a = k
    · subst ha
      rw [alookup, if_pos rfl] at h
      have hcb := Option.some.inj h
      subst hcb
      rw [aset, if_pos rfl, countCap_cons, countCap_cons]
      simp only [hiff]
    · rw [alookup, if_neg ha] at h
      rw [aset, if_neg ha, countCap_cons, countCap_cons, ih h]

theorem countCap_aset_incr {caps : List (String × List String)} {k : String}
    {b : List String} (h : alookup caps k = some b) {v : List String} {t : String}
    (hv : t ∈ v) (hb : t ∉ b) :
    countCap (aset caps k v) t = countCap caps t + 1 := by
  induction caps with
  | nil => simp [alookup] at h
  | cons q rest ih =>
    obtain ⟨a, c⟩ := q
    by_cases ha : a = k
    · subst ha
      rw [alookup, if_pos rfl] at h
      have hcb := Option.some.inj h
      subst hcb
      rw [aset, if_pos rfl, countCap_cons, countCap_cons, if_pos hv, if_neg hb]
    · rw [alookup, if_neg ha] at h
      rw [aset, if_neg ha, countCap_cons, countCap_cons, ih h]
      omega

theorem countCap_aset_decr {caps : List (String × List String)} {k : String}
    {b : List String} (h : alookup caps k = some b) {v : List String} {t : String}
    (hv : t ∉ v) (hb : t ∈ b) :
    countCap caps t = countCap (aset caps k v) t + 1 := by
  induction caps with
  | nil => simp [alookup] at h
  | cons q rest ih =>
    obtain ⟨a, c⟩ := q
    by_cases ha : a = k
    · subst ha
      rw [alookup, if_pos rfl] at h
      have hcb := Option.some.inj h
      subst hcb
      rw [aset, if_pos rfl, countCap_cons, countCap_cons, if_pos hb, if_neg hv]
    · rw [alookup, if_neg ha] at h
      rw [aset, if_neg ha, countCap_cons, countCap_cons, ih h]
      omega

theorem countCap_adel_mem {caps : List (String × List String)} {k : String}
    {b : List String} (h : alookup caps k = some b) {t : String} (hb : t ∈ b) :
    countCap caps t = countCap (adel caps k) t + 1 := by
  induction caps with
  | nil => simp [alookup] at h
  | cons q rest ih =>
    obtain ⟨a, c⟩ := q
    by_cases ha : a = k
    · subst ha
      rw [alookup, if_pos rfl] at h
      have hcb := Option.some.inj h
      subst hcb
      rw [adel, if_pos rfl, countCap_cons, if_pos hb]
    · rw [alookup, if_neg ha] at h
      rw [adel, if_neg ha, countCap_cons, countCap_cons, ih h]
      omega

theorem countCap_adel_not_mem {caps : List (String × List String)} {k : String}
    {b : List String} (h : alookup caps k = some b) {t : String} (hb : t ∉ b) :
    countCap (adel caps k) t = countCap caps t := by
  induction caps with
  | nil => simp [alookup] at h
  | cons q rest ih =>
    obtain ⟨a, c⟩ := q
    by_cases ha : a = k
    · subst ha
      rw [alookup, if_pos rfl] at h
      have hcb := Option.some.inj h
      subst hcb
      rw [adel, if_pos rfl, countCap_cons, if_neg hb]
      omega
    · rw [alookup, if_neg ha] at h
      rw [adel, if_neg ha, countCap_cons, countCap_cons, ih h]

theorem countCap_eq_zero_iff (caps : List (String × List String)) (t : String) :
    countCap caps t = 0 ↔ ∀ p ∈ caps, t ∉ p.2 := by
  unfold countCap
  rw [List.countP_eq_zero]
  simp

theorem countCap_pos_of_mem {caps : List (String × List String)}
    {p : String × List String} (hp : p ∈ caps) {t : String} (ht : t ∈ p.2) :
    0 < countCap caps t := by
  unfold countCap
  rw [List.countP_pos_iff]
  exact ⟨p, hp, by simpa using ht⟩

/-- In an invariant state the defaultdict read of any tag equals the
number of captions containing it. -/
theorem fget_eq_countCap {caps : List (String × List String)}
    {freq : List (String × Nat)} (h : FreqOk caps freq) (t : String) :
    fget freq t = countCap caps t := by
  cases hl : alookup freq t with
  | some v =>
    have hv := (h.2.1 _ (mem_of_alookup_eq_some hl)).1
    simp only [fget, hl, Option.getD_some]
    exact hv
  | none =>
    have hk : t ∉ akeys freq := (alookup_eq_none_iff freq t).mp hl
    have hz : countCap caps t = 0 := by
      rw [countCap_eq_zero_iff]
      intro p hp ht
      exact hk (h.2.2 p hp t ht)
    simp [fget, hl, hz]

/-- In an invariant state a tag has a frequency entry iff some caption
contains it. -/
theorem mem_akeys_freq_iff {caps : List (String × List String)}
    {freq : List (String × Nat)} (h : FreqOk caps freq) (t : String) :
    t ∈ akeys freq ↔ ¬ countCap caps t = 0 := by
  constructor
  · intro ht
    obtain ⟨v, hv⟩ := alookup_isSome_of_mem_akeys ht
    have := h.2.1 _ (mem_of_alookup_eq_some hv)
    rw [← this.1]
    exact this.2
  · intro hz
    have : 0 < countCap caps t := Nat.pos_of_ne_zero hz
    rw [countCap] at this
    rw [List.countP_pos_iff] at this
    obtain ⟨p, hp, ht⟩ := this
    exact h.2.2 p hp t (by simpa using ht)

/-- With unique keys, `countCap` counts exactly the images of any list
that enumerates the caption keys without duplicates. -/
theorem countCap_eq_countImages {caps : List (String × List String)}
    {imgs : List String} (hkn : (akeys caps).Nodup) (hin : imgs.Nodup)
    (hmem : ∀ i, i ∈ imgs ↔ i ∈ akeys caps) (t : String) :
    countCap caps t = countImages caps imgs t := by
  have hperm : imgs.Perm (akeys caps) :=
    (List.perm_ext_iff_of_nodup hin (by simpa [akeys] using hkn)).mpr hmem
  unfold countImages
  rw [hperm.countP_eq]
  unfold akeys
  rw [List.countP_map]
  unfold countCap
  apply List.countP_congr
  intro p hp
  have : alookup caps p.1 = some p.2 := alookup_of_mem_of_nodup hkn hp
  simp [Function.comp, capGet, this]

theorem freqSpec_of_inv {s : AppState} (h : Inv s) : FreqSpec s := by
  obtain ⟨hcaps, hfreq, htags, himgs⟩ := h
  have hcount : ∀ t, countCap s.captions t = countImages s.captions s.images t := by
    intro t
    refine countCap_eq_countImages hcaps.1 himgs.1 ?_ t
    intro i
    constructor
    · exact himgs.2.2.1 i
    · intro hi
      rcases List.mem_map.mp hi with ⟨p, hp, rfl⟩
      exact himgs.2.1 p hp
  refine ⟨?_, ?_, ?_⟩
  · intro t
    rw [fget_eq_countCap hfreq, hcount]
  · intro p hp
    exact (hfreq.2.1 p hp).2
  · intro t
    rw [← hcount]
    constructor
    · intro ht
      have := (mem_akeys_freq_iff hfreq t).mp (htags.1 t ht)
      exact Nat.pos_of_ne_zero this
    · intro ht
      have := (mem_akeys_freq_iff hfreq t).mpr (Nat.pos_iff_ne_zero.mp ht)
      obtain ⟨v, hv⟩ := alookup_isSome_of_mem_akeys this
      exact htags.2 _ (mem_of_alookup_eq_some hv)

/-! ### Preservation of the invariant by tag addition -/

theorem nodup_append_single {α : Type} {l : List α} (hn : l.Nodup) {x : α}
    (hx : x ∉ l) : (l ++ [x]).Nodup := by
  rw [List.nodup_append]
  exact ⟨hn, List.nodup_singleton x, by simpa using hx⟩

/-- Effect of `tag_frequency[tag] += 1` (defaultdict read, then store)
on the entries and keys of the frequency map. -/
theorem freq_inc_spec {freq : List (String × Nat)} (hn : (akeys freq).Nodup)
    (tag : String) :
    (akeys (aset (freqRead freq tag).2 tag ((freqRead freq tag).1 + 1))).Nodup ∧
    (∀ p, p ∈ aset (freqRead freq tag).2 tag ((freqRead freq tag).1 + 1) ↔
       p = (tag, fget freq tag + 1) ∨ (p ∈ freq ∧ ¬ p.1 = tag)) ∧
    (∀ t, t ∈ akeys (aset (freqRead freq tag).2 tag ((freqRead freq tag).1 + 1)) ↔
       t = tag ∨ t ∈ akeys freq) := by
  cases hl : alookup freq tag with
  | some v =>
    have hkey : tag ∈ akeys freq := mem_akeys_of_alookup_eq_some hl
    have hfget : fget freq tag = v := by simp [fget, hl]
    simp only [freqRead, hl]
    refine ⟨?_, ?_, ?_⟩
    · rw [akeys_aset_of_mem hkey]
      exact hn
    · intro p
      rw [mem_aset_iff_of_nodup hn, hfget]
    · intro t
      rw [mem_akeys_aset_iff]
  | none =>
    have hkey : tag ∉ akeys freq := (alookup_eq_none_iff freq tag).mp hl
    have hfget : fget freq tag = 0 := by simp [fget, hl]
    have hnodup2 : (akeys (freq ++ [(tag, 0)])).Nodup := by
      rw [akeys_append]
      exact nodup_append_single hn (by simpa [akeys] using hkey)
    have hkey2 : tag ∈ akeys (freq ++ [(tag, 0)]) := by
      rw [akeys_append]
      simp [akeys]
    simp only [freqRead, hl]
    refine ⟨?_, ?_, ?_⟩
    · rw [akeys_aset_of_mem hkey2]
      exact hnodup2
    · intro p
      rw [mem_aset_iff_of_nodup hnodup2, hfget]
      constructor
      · rintro (rfl | ⟨hp, hne⟩)
        · exact Or.inl rfl
        · rcases List.mem_append.mp hp with hp2 | hp2
          · exact Or.inr ⟨hp2, hne⟩
          · rcases List.mem_singleton.mp hp2 with rfl
            exact absurd rfl hne
      · rintro (rfl | ⟨hp, hne⟩)
        · exact Or.inl rfl
        · exact Or.inr ⟨List.mem_append_left _ hp, hne⟩
    · intro t
      rw [mem_akeys_aset_iff, akeys_append]
      simp only [List.mem_append]
      constructor
      · rintro (rfl | h | h)
        · exact Or.inl rfl
        · exact Or.inr h
        · simp [akeys] at h
          exact Or.inl h
      · rintro (rfl | h)
        · exact Or.inl rfl
        · exact Or.inr (Or.inl h)

theorem inv_save_iff (s : AppState) (p : String) :
    Inv (save_caption_file s p) ↔ Inv s := Iff.rfl

theorem addTagOne_inv {s : AppState} {img tag : String} (himg : img ∈ s.images)
    (h : Inv s) : Inv (addTagOne s img tag) := by
  obtain ⟨hcaps, hfreq, htags, himgs⟩ := h
  unfold addTagOne
  by_cases hmem : tag ∈ capGet s.captions img
  · rw [if_pos hmem]
    exact ⟨hcaps, hfreq, htags, himgs⟩
  · rw [if_neg hmem, inv_save_iff]
    obtain ⟨hspec1, hspec2, hspec3⟩ := freq_inc_spec hfreq.1 tag
    have hcount_inc :
        countCap (aset s.captions img (capGet s.captions img ++ [tag])) tag =
          countCap s.captions tag + 1 := by
      cases hlo : alookup s.captions img with
      | some b =>
        have hb : capGet s.captions img = b := by simp [capGet, hlo]
        refine countCap_aset_incr hlo ?_ ?_
        · exact List.mem_append_right _ (List.mem_singleton.mpr rfl)
        · rw [← hb]
          exact hmem
      | none =>
        have hb : capGet s.captions img = [] := by simp [capGet, hlo]
        rw [countCap_aset_absent hlo, if_pos]
        exact List.mem_append_right _ (List.mem_singleton.mpr rfl)
    have hcount_ne : ∀ t, ¬ t = tag →
        countCap (aset s.captions img (capGet s.captions img ++ [tag])) t =
          countCap s.captions t := by
      intro t hne
      cases hlo : alookup s.captions img with
      | some b =>
        have hb : capGet s.captions img = b := by simp [capGet, hlo]
        refine countCap_aset_congr hlo ?_
        rw [hb]
        simp only [List.mem_append, List.mem_singleton]
        constructor
        · rintro (ht | rfl)
          · exact ht
          · exact absurd rfl hne
        · exact Or.inl
      | none =>
        have hb : capGet s.captions img = [] := by simp [capGet, hlo]
        rw [countCap_aset_absent hlo, if_neg, Nat.add_zero]
        rw [hb]
        simp only [List.nil_append, List.mem_singleton]
        exact hne
    refine ⟨⟨?_, ?_⟩, ⟨hspec1, ?_, ?_⟩, ⟨?_, ?_⟩, ⟨himgs.1, ?_, ?_, himgs.2.2.2⟩⟩
    · -- caption keys still nodup
      cases hlo : alookup s.captions img with
      | some b =>
        rw [akeys_aset_of_mem (mem_akeys_of_alookup_eq_some hlo)]
        exact hcaps.1
      | none =>
        rw [akeys_aset_of_not_mem ((alookup_eq_none_iff _ _).mp hlo)]
        exact nodup_append_single hcaps.1 ((alookup_eq_none_iff _ _).mp hlo)
    · -- every caption value still nodup
      intro p hp
      rcases (mem_aset_iff_of_nodup hcaps.1 _ _ _).mp hp with rfl | ⟨hp2, _⟩
      · have hold : (capGet s.captions img).Nodup := by
          cases hlo : alookup s.captions img with
          | some b =>
            have hb : capGet s.captions img = b := by simp [capGet, hlo]
            rw [hb]
            exact hcaps.2 _ (mem_of_alookup_eq_some hlo)
          | none => simp [capGet, hlo]
        exact nodup_append_single hold hmem
      · exact hcaps.2 p hp2
    · -- frequency entries correct and nonzero
      intro p hp
      rcases (hspec2 p).mp hp with rfl | ⟨hp2, hne⟩
      · constructor
        · rw [hcount_inc, fget_eq_countCap hfreq]
        · simp
      · have := hfreq.2.1 p hp2
        constructor
        · rw [hcount_ne p.1 hne]
          exact this.1
        · exact this.2
    · -- every caption tag has a frequency entry
      intro p hp t ht
      rcases (mem_aset_iff_of_nodup hcaps.1 _ _ _).mp hp with rfl | ⟨hp2, _⟩
      · rcases List.mem_append.mp ht with ht2 | ht2
        · rw [hspec3]
          refine Or.inr ?_
          cases hlo : alookup s.captions img with
          | some b =>
            have hb : capGet s.captions img = b := by simp [capGet, hlo]
            refine hfreq.2.2 (img, b) (mem_of_alookup_eq_some hlo) t ?_
            rw [← hb]
            exact ht2
          | none =>
            have hb : capGet s.captions img = [] := by simp [capGet, hlo]
            rw [hb] at ht2
            simp at ht2
        · rcases List.mem_singleton.mp ht2 with rfl
          rw [hspec3]
          exact Or.inl rfl
      · rw [hspec3]
        exact Or.inr (hfreq.2.2 p hp2 t ht)
    · -- all_tags ⊆ frequency keys
      intro t ht
      rcases (mem_setAdd_iff _ _ _).mp ht with ht2 | rfl
      · rw [hspec3]
        exact Or.inr (htags.1 t ht2)
      · rw [hspec3]
        exact Or.inl rfl
    · -- frequency keys ⊆ all_tags
      intro p hp
      rcases (hspec2 p).mp hp with rfl | ⟨hp2, _⟩
      · exact (mem_setAdd_iff _ _ _).mpr (Or.inr rfl)
      · exact (mem_setAdd_iff _ _ _).mpr (Or.inl (htags.2 p hp2))
    · -- caption keys ⊆ images
      intro p hp
      rcases (mem_aset_iff_of_nodup hcaps.1 _ _ _).mp hp with rfl | ⟨hp2, _⟩
      · exact himg
      · exact himgs.2.1 p hp2
    · -- images ⊆ caption keys
      intro i hi
      rw [mem_akeys_aset_iff]
      exact Or.inr (himgs.2.2.1 i hi)

/-! ### Preservation of the invariant by tag removal -/

theorem removeTagOne_inv {s : AppState} {img tag : String}
    (h : Inv s) : Inv (removeTagOne s img tag) := by
  obtain ⟨hcaps, hfreq, htags, himgs⟩ := h
  unfold removeTagOne
  by_cases hmem : tag ∈ capGet s.captions img
  case neg =>
    rw [if_neg hmem]
    exact ⟨hcaps, hfreq, htags, himgs⟩
  rw [if_pos hmem, inv_save_iff]
  -- the caption entry of img exists and contains the tag
  obtain ⟨b, hlo⟩ : ∃ b, alookup s.captions img = some b := by
    cases hlo : alookup s.captions img with
    | some b => exact ⟨b, rfl⟩
    | none => simp [capGet, hlo] at hmem
  have hb : capGet s.captions img = b := by simp [capGet, hlo]
  have htb : tag ∈ b := hb ▸ hmem
  have hbmem : (img, b) ∈ s.captions := mem_of_alookup_eq_some hlo
  have hbnodup : b.Nodup := hcaps.2 _ hbmem
  -- the frequency entry of tag exists, is the caption count, is positive
  have htkey : tag ∈ akeys s.tag_frequency := hfreq.2.2 _ hbmem tag htb
  obtain ⟨v, hl⟩ := alookup_isSome_of_mem_akeys htkey
  have hventry := hfreq.2.1 _ (mem_of_alookup_eq_some hl)
  have hvcount : v = countCap s.captions tag := hventry.1
  have hvpos : 0 < v := Nat.pos_of_ne_zero hventry.2
  simp only [freqRead, hl, if_pos hvpos]
  -- facts about the updated captions
  have hkeys' : akeys (aset s.captions img (eraseFirst (capGet s.captions img) tag)) =
      akeys s.captions := akeys_aset_of_mem (mem_akeys_of_alookup_eq_some hlo) _
  have hte : tag ∉ eraseFirst (capGet s.captions img) tag := by
    rw [hb]
    exact not_mem_eraseFirst_self hbnodup tag
  have hcount_tag : countCap s.captions tag =
      countCap (aset s.captions img (eraseFirst (capGet s.captions img) tag)) tag + 1 :=
    countCap_aset_decr hlo hte (hb ▸ htb)
  have hcount_ne : ∀ t, ¬ t = tag →
      countCap (aset s.captions img (eraseFirst (capGet s.captions img) tag)) t =
        countCap s.captions t := by
    intro t hne
    refine countCap_aset_congr hlo ?_
    rw [hb]
    exact mem_eraseFirst_of_ne hne
  have hcapsOk' : CapsOk (aset s.captions img (eraseFirst (capGet s.captions img) tag)) := by
    constructor
    · rw [hkeys']
      exact hcaps.1
    · intro p hp
      rcases (mem_aset_iff_of_nodup hcaps.1 _ _ _).mp hp with rfl | ⟨hp2, _⟩
      · exact List.Nodup.sublist (eraseFirst_sublist _ _) (hb ▸ hbnodup)
      · exact hcaps.2 p hp2
  have himgsOk' : ∀ freq2 tags2,
      ImgsOk { s with
        captions := aset s.captions img (eraseFirst (capGet s.captions img) tag),
        tag_frequency := freq2, all_tags := tags2 } := by
    intro freq2 tags2
    refine ⟨himgs.1, ?_, ?_, himgs.2.2.2⟩
    · intro p hp
      rcases (mem_aset_iff_of_nodup hcaps.1 _ _ _).mp hp with rfl | ⟨hp2, _⟩
      · exact himgs.2.1 (img, b) hbmem
      · exact himgs.2.1 p hp2
    · intro i hi
      rw [hkeys']
      exact himgs.2.2.1 i hi
  by_cases hz : v - 1 = 0
  · rw [if_pos hz]
    -- the tag's count drops to zero: entry deleted, tag discarded
    have hksA : akeys (aset s.tag_frequency tag (v - 1)) = akeys s.tag_frequency :=
      akeys_aset_of_mem htkey _
    have hnA : (akeys (aset s.tag_frequency tag (v - 1))).Nodup := by
      rw [hksA]
      exact hfreq.1
    have hentries : ∀ p, p ∈ adel (aset s.tag_frequency tag (v - 1)) tag ↔
        p ∈ s.tag_frequency ∧ ¬ p.1 = tag := by
      intro p
      rw [mem_adel_iff_of_nodup hnA]
      constructor
      · rintro ⟨hp, hne⟩
        rcases (mem_aset_iff_of_nodup hfreq.1 _ _ _).mp hp with rfl | ⟨hp2, hne2⟩
        · exact absurd rfl hne
        · exact ⟨hp2, hne⟩
      · rintro ⟨hp, hne⟩
        exact ⟨(mem_aset_iff_of_nodup hfreq.1 _ _ _).mpr (Or.inr ⟨hp, hne⟩), hne⟩
    have hkeysDel : ∀ t, t ∈ akeys (adel (aset s.tag_frequency tag (v - 1)) tag) ↔
        t ∈ akeys s.tag_frequency ∧ ¬ t = tag := by
      intro t
      rw [mem_akeys_adel_iff hnA, hksA]
    have hzero : countCap (aset s.captions img (eraseFirst (capGet s.captions img) tag)) tag = 0 := by
      omega
    have hnotag : ∀ p ∈ aset s.captions img (eraseFirst (capGet s.captions img) tag),
        tag ∉ p.2 := (countCap_eq_zero_iff _ _).mp hzero
    refine ⟨hcapsOk', ⟨?_, ?_, ?_⟩, ⟨?_, ?_⟩, himgsOk' _ _⟩
    · exact List.Nodup.sublist (akeys_adel_sublist _ _) hnA
    · intro p hp
      rcases (hentries p).mp hp with ⟨hp2, hne⟩
      have := hfreq.2.1 p hp2
      rw [hcount_ne p.1 hne]
      exact this
    · intro p hp t ht
      rw [hkeysDel]
      have htag : ¬ t = tag := by
        intro he
        exact hnotag p hp (he ▸ ht)
      rcases (mem_aset_iff_of_nodup hcaps.1 _ _ _).mp hp with rfl | ⟨hp2, _⟩
      · refine ⟨?_, htag⟩
        have : t ∈ b := by
          have hsub := eraseFirst_sublist (capGet s.captions img) tag
          have := hsub.mem ht
          rw [hb] at this
          exact this
        exact hfreq.2.2 _ hbmem t this
      · exact ⟨hfreq.2.2 p hp2 t ht, htag⟩
    · intro t ht
      rcases (mem_setDiscard_iff _ _ _).mp ht with ⟨ht2, hne⟩
      rw [hkeysDel]
      exact ⟨htags.1 t ht2, hne⟩
    · intro p hp
      rcases (hentries p).mp hp with ⟨hp2, hne⟩
      rw [mem_setDiscard_iff]
      exact ⟨htags.2 p hp2, hne⟩
  · rw [if_neg hz]
    -- the tag's count stays positive: entry updated in place
    have hentries : ∀ p, p ∈ aset s.tag_frequency tag (v - 1) ↔
        p = (tag, v - 1) ∨ (p ∈ s.tag_frequency ∧ ¬ p.1 = tag) :=
      mem_aset_iff_of_nodup hfreq.1 _ _
    have hksA : akeys (aset s.tag_frequency tag (v - 1)) = akeys s.tag_frequency :=
      akeys_aset_of_mem htkey _
    refine ⟨hcapsOk', ⟨?_, ?_, ?_⟩, ⟨?_, ?_⟩, himgsOk' _ _⟩
    · rw [hksA]
      exact hfreq.1
    · intro p hp
      rcases (hentries p).mp hp with rfl | ⟨hp2, hne⟩
      · constructor
        · show v - 1 =
            countCap (aset s.captions img (eraseFirst (capGet s.captions img) tag)) tag
          omega
        · exact hz
      · have := hfreq.2.1 p hp2
        rw [hcount_ne p.1 hne]
        exact this
    · intro p hp t ht
      rw [hksA]
      rcases (mem_aset_iff_of_nodup hcaps.1 _ _ _).mp hp with rfl | ⟨hp2, _⟩
      · have : t ∈ b := by
          have hsub := eraseFirst_sublist (capGet s.captions img) tag
          have := hsub.mem ht
          rw [hb] at this
          exact this
        exact hfreq.2.2 _ hbmem t this
      · exact hfreq.2.2 p hp2 t ht
    · intro t ht
      rw [hksA]
      exact htags.1 t ht
    · intro p hp
      rcases (hentries p).mp hp with rfl | ⟨hp2, _⟩
      · exact htags.2 (tag, v) (mem_of_alookup_eq_some hl)
      · exact htags.2 p hp2

/-! ### Field-preservation and fold lemmas for the tag operations -/

theorem addTagOne_fields (s : AppState) (img tag : String) :
    (addTagOne s img tag).images = s.images ∧
    (addTagOne s img tag).selected_images = s.selected_images ∧
    (addTagOne s img tag).filter_active = s.filter_active ∧
    (addTagOne s img tag).filtered_images = s.filtered_images := by
  unfold addTagOne save_caption_file
  split <;> simp

theorem removeTagOne_fields (s : AppState) (img tag : String) :
    (removeTagOne s img tag).images = s.images ∧
    (removeTagOne s img tag).selected_images = s.selected_images ∧
    (removeTagOne s img tag).filter_active = s.filter_active ∧
    (removeTagOne s img tag).filtered_images = s.filtered_images := by
  unfold removeTagOne save_caption_file
  split
  · split
    · split <;> simp
    · simp
  · simp

theorem foldl_addTagOne_fields (sel : List String) (s : AppState) (tag : String) :
    (sel.foldl (fun st img => addTagOne st img tag) s).images = s.images ∧
    (sel.foldl (fun st img => addTagOne st img tag) s).selected_images = s.selected_images ∧
    (sel.foldl (fun st img => addTagOne st img tag) s).filter_active = s.filter_active ∧
    (sel.foldl (fun st img => addTagOne st img tag) s).filtered_images = s.filtered_images := by
  induction sel generalizing s with
  | nil => exact ⟨rfl, rfl, rfl, rfl⟩
  | cons a rest ih =>
    rw [List.foldl_cons]
    obtain ⟨h1, h2, h3, h4⟩ := ih (addTagOne s a tag)
    obtain ⟨g1, g2, g3, g4⟩ := addTagOne_fields s a tag
    exact ⟨h1.trans g1, h2.trans g2, h3.trans g3, h4.trans g4⟩

theorem foldl_removeTagOne_fields (sel : List String) (s : AppState) (tag : String) :
    (sel.foldl (fun st img => removeTagOne st img tag) s).images = s.images ∧
    (sel.foldl (fun st img => removeTagOne st img tag) s).selected_images = s.selected_images ∧
    (sel.foldl (fun st img => removeTagOne st img tag) s).filter_active = s.filter_active ∧
    (sel.foldl (fun st img => removeTagOne st img tag) s).filtered_images = s.filtered_images := by
  induction sel generalizing s with
  | nil => exact ⟨rfl, rfl, rfl, rfl⟩
  | cons a rest ih =>
    rw [List.foldl_cons]
    obtain ⟨h1, h2, h3, h4⟩ := ih (removeTagOne s a tag)
    obtain ⟨g1, g2, g3, g4⟩ := removeTagOne_fields s a tag
    exact ⟨h1.trans g1, h2.trans g2, h3.trans g3, h4.trans g4⟩

theorem foldl_addTagOne_inv {sel : List String} {s : AppState} {tag : String}
    (hsub : ∀ i ∈ sel, i ∈ s.images) (h : Inv s) :
    Inv (sel.foldl (fun st img => addTagOne st img tag) s) := by
  induction sel generalizing s with
  | nil => exact h
  | cons a rest ih =>
    rw [List.foldl_cons]
    refine ih ?_ (addTagOne_inv (hsub a (List.mem_cons_self _ _)) h)
    intro i hi
    rw [(addTagOne_fields s a tag).1]
    exact hsub i (List.mem_cons_of_mem _ hi)

theorem foldl_removeTagOne_inv {sel : List String} {s : AppState} {tag : String}
    (h : Inv s) : Inv (sel.foldl (fun st img => removeTagOne st img tag) s) := by
  induction sel generalizing s with
  | nil => exact h
  | cons a rest ih =>
    rw [List.foldl_cons]
    exact ih (removeTagOne_inv h)

theorem add_tag_to_selected_inv {s : AppState} (tag : String) (h : Inv s) :
    Inv (add_tag_to_selected s tag) := by
  unfold add_tag_to_selected
  split
  · exact foldl_addTagOne_inv (fun i hi => h.2.2.2.2.2.2 i hi) h
  · exact h

theorem remove_tag_from_selected_inv {s : AppState} (tag : String) (h : Inv s) :
    Inv (remove_tag_from_selected s tag) := by
  unfold remove_tag_from_selected
  split
  · exact foldl_removeTagOne_inv h
  · exact h

theorem applyTagOp_inv {s : AppState} (op : TagOp) (h : Inv s) :
    Inv (applyTagOp s op) := by
  cases op with
  | add input => exact add_tag_to_selected_inv input h
  | remove input => exact remove_tag_from_selected_inv input h

theorem applyTagOps_inv {s : AppState} (ops : List TagOp) (h : Inv s) :
    Inv (applyTagOps s ops) := by
  unfold applyTagOps
  induction ops generalizing s with
  | nil => exact h
  | cons op rest ih =>
    rw [List.foldl_cons]
    exact ih (applyTagOp_inv op h)

/-- C1: after any sequence of add-tag/remove-tag operations starting
from a consistent state, every tag's stored frequency equals the number
of catalog images whose caption currently contains it, no stored count
is zero (counts are naturals, so none is negative), and `all_tags`
holds exactly the tags with positive count. -/
theorem c1_tag_frequency_invariant (s : AppState) (ops : List TagOp)
    (h : Inv s) :
    (∀ t, fget (applyTagOps s ops).tag_frequency t =
       countImages (applyTagOps s ops).captions (applyTagOps s ops).images t) ∧
    (∀ p ∈ (applyTagOps s ops).tag_frequency, ¬ p.2 = 0) ∧
    (∀ t, t ∈ (applyTagOps s ops).all_tags ↔
       0 < countImages (applyTagOps s ops).captions (applyTagOps s ops).images t) :=
  freqSpec_of_inv (applyTagOps_inv ops h)

/-- Witness for C1 at a concrete loaded state and operation sequence. -/
theorem c1_tag_frequency_invariant_witness :
    Inv exampleLoadedState ∧
    ((∀ t, fget (applyTagOps exampleLoadedState [TagOp.add "z", TagOp.remove "x"]).tag_frequency t =
        countImages (applyTagOps exampleLoadedState [TagOp.add "z", TagOp.remove "x"]).captions
          (applyTagOps exampleLoadedState [TagOp.add "z", TagOp.remove "x"]).images t) ∧
     (∀ p ∈ (applyTagOps exampleLoadedState [TagOp.add "z", TagOp.remove "x"]).tag_frequency, ¬ p.2 = 0) ∧
     (∀ t, t ∈ (applyTagOps exampleLoadedState [TagOp.add "z", TagOp.remove "x"]).all_tags ↔
        0 < countImages (applyTagOps exampleLoadedState [TagOp.add "z", TagOp.remove "x"]).captions
          (applyTagOps exampleLoadedState [TagOp.add "z", TagOp.remove "x"]).images t)) :=
  ⟨by decide, c1_tag_frequency_invariant exampleLoadedState [TagOp.add "z", TagOp.remove "x"] (by decide)⟩

/-- C10: the tag-edit operations do not recompute the filtered view:
`filter_active`, `filtered_images` and the catalog are untouched, so the
gallery repopulation (`update_gallery`) shows exactly the same sequence
as before the edit. -/
theorem c10_tag_edits_leave_filter_untouched (s : AppState) (tagA tagR : String) :
    (add_tag_to_selected s tagA).filter_active = s.filter_active ∧
    (add_tag_to_selected s tagA).filtered_images = s.filtered_images ∧
    (add_tag_to_selected s tagA).images = s.images ∧
    update_gallery (add_tag_to_selected s tagA) = update_gallery s ∧
    (remove_tag_from_selected s tagR).filter_active = s.filter_active ∧
    (remove_tag_from_selected s tagR).filtered_images = s.filtered_images ∧
    (remove_tag_from_selected s tagR).images = s.images ∧
    update_gallery (remove_tag_from_selected s tagR) = update_gallery s := by
  have ha : (add_tag_to_selected s tagA).filter_active = s.filter_active ∧
      (add_tag_to_selected s tagA).filtered_images = s.filtered_images ∧
      (add_tag_to_selected s tagA).images = s.images := by
    unfold add_tag_to_selected
    split
    · obtain ⟨h1, _, h3, h4⟩ := foldl_addTagOne_fields s.selected_images s tagA
      exact ⟨h3, h4, h1⟩
    · exact ⟨rfl, rfl, rfl⟩
  have hr : (remove_tag_from_selected s tagR).filter_active = s.filter_active ∧
      (remove_tag_from_selected s tagR).filtered_images = s.filtered_images ∧
      (remove_tag_from_selected s tagR).images = s.images := by
    unfold remove_tag_from_selected
    split
    · obtain ⟨h1, _, h3, h4⟩ := foldl_removeTagOne_fields s.selected_images s tagR
      exact ⟨h3, h4, h1⟩
    · exact ⟨rfl, rfl, rfl⟩
  refine ⟨ha.1, ha.2.1, ha.2.2, ?_, hr.1, hr.2.1, hr.2.2, ?_⟩
  · unfold update_gallery
    rw [ha.1, ha.2.1, ha.2.2]
  · unfold update_gallery
    rw [hr.1, hr.2.1, hr.2.2]

/-- C3 counterexample: with an empty chosen tag set, `filter_images`
returns early and leaves the previous filtered view in place, so the
view retains an image whose caption intersects none of the chosen tags
— the claimed characterization fails for the empty tag set. -/
theorem c3_empty_tagset_counterexample :
    (filter_images c3FilterState []).filtered_images = ["/d/a.jpg"] ∧
    ¬ ∃ t ∈ ([] : List String), t ∈ capGet c3FilterState.captions "/d/a.jpg" := by
  constructor
  · decide
  · simp

/-- C3 (amended): for every nonempty chosen tag set, filtering is
order-preserving (the result is a sublist of the catalog) and retains
exactly the matching images: under `Inclusive` those whose caption
intersects the chosen tags, under `Exclusive` those whose caption
contains all of them, and `ignore_tags` those whose caption intersects
none; both operations mark the filter active. -/
theorem c3_filtering_characterization (s : AppState) (ts : List String)
    (h : ¬ ts = []) :
    List.Sublist (filter_images s ts).filtered_images s.images ∧
    (filter_images s ts).filter_active = true ∧
    (s.filter_mode = "Inclusive" →
      ∀ img, img ∈ (filter_images s ts).filtered_images ↔
        img ∈ s.images ∧ ∃ t ∈ ts, t ∈ capGet s.captions img) ∧
    (s.filter_mode = "Exclusive" →
      ∀ img, img ∈ (filter_images s ts).filtered_images ↔
        img ∈ s.images ∧ ∀ t ∈ ts, t ∈ capGet s.captions img) ∧
    List.Sublist (ignore_tags s ts).filtered_images s.images ∧
    (ignore_tags s ts).filter_active = true ∧
    (∀ img, img ∈ (ignore_tags s ts).filtered_images ↔
      img ∈ s.images ∧ ¬ ∃ t ∈ ts, t ∈ capGet s.captions img) := by
  unfold filter_images ignore_tags
  rw [if_neg h, if_neg h]
  refine ⟨List.filter_sublist _, rfl, ?_, ?_, List.filter_sublist _, rfl, ?_⟩
  · intro hmode img
    simp only [List.mem_filter]
    rw [if_pos hmode]
    simp only [List.any_eq_true, decide_eq_true_eq]
  · intro hmode img
    have hne : ¬ s.filter_mode = "Inclusive" := by
      rw [hmode]
      decide
    simp only [List.mem_filter]
    rw [if_neg hne]
    simp only [List.all_eq_true, decide_eq_true_eq]
  · intro img
    simp only [List.mem_filter, List.any_eq_true, decide_eq_true_eq]

/-- Witness for C3 at the example loaded state with one chosen tag. -/
theorem c3_filtering_characterization_witness :
    (¬ (["x"] : List String) = []) ∧
    (List.Sublist (filter_images exampleLoadedState ["x"]).filtered_images
       exampleLoadedState.images ∧
     (filter_images exampleLoadedState ["x"]).filter_active = true ∧
     (exampleLoadedState.filter_mode = "Inclusive" →
       ∀ img, img ∈ (filter_images exampleLoadedState ["x"]).filtered_images ↔
         img ∈ exampleLoadedState.images ∧
           ∃ t ∈ (["x"] : List String), t ∈ capGet exampleLoadedState.captions img) ∧
     (exampleLoadedState.filter_mode = "Exclusive" →
       ∀ img, img ∈ (filter_images exampleLoadedState ["x"]).filtered_images ↔
         img ∈ exampleLoadedState.images ∧
           ∀ t ∈ (["x"] : List String), t ∈ capGet exampleLoadedState.captions img) ∧
     List.Sublist (ignore_tags exampleLoadedState ["x"]).filtered_images
       exampleLoadedState.images ∧
     (ignore_tags exampleLoadedState ["x"]).filter_active = true ∧
     (∀ img, img ∈ (ignore_tags exampleLoadedState ["x"]).filtered_images ↔
       img ∈ exampleLoadedState.images ∧
         ¬ ∃ t ∈ (["x"] : List String), t ∈ capGet exampleLoadedState.captions img)) :=
  ⟨by decide, c3_filtering_characterization exampleLoadedState ["x"] (by decide)⟩

/-! ### Selection and the active view -/

theorem mem_symmDiffList (a b : List String) (x : String) :
    x ∈ symmDiffList a b ↔ (x ∈ a ∧ x ∉ b) ∨ (x ∈ b ∧ x ∉ a) := by
  unfold symmDiffList
  simp only [List.mem_append, List.mem_filter, decide_eq_true_eq]

/-- C8 counterexample: select `b.jpg`, filter on tag "t" (the filter
does not restrict the selection), then invert: the resulting selection
contains `b.jpg`, which is outside the active (filtered) view — so the
selection is not always a subset of the active view after a
selection-affecting operation. -/
theorem c8_invert_escapes_active_view :
    "/d/b.jpg" ∈
      (invert_selection (filter_images (image_clicked c8SelState "/d/b.jpg") ["t"])).selected_images ∧
    "/d/b.jpg" ∉
      activeView (invert_selection (filter_images (image_clicked c8SelState "/d/b.jpg") ["t"])) := by
  constructor
  · decide
  · decide

/-- C8 (amended): select-all yields a subset of the active view,
deselect-all empties the selection, and invert / toggle preserve the
subset property provided the prior selection lay inside the active view
(and the toggled image is in the view); a selection that has escaped
the view — possible because filtering does not restrict it — stays
escaped.  After a move the selection is empty, so it references no
removed image. -/
theorem c8_selection_subset_of_active_view (s : AppState) (img : String) :
    (∀ x ∈ (select_all_images s).selected_images, x ∈ activeView (select_all_images s)) ∧
    (deselect_all_images s).selected_images = [] ∧
    ((∀ x ∈ s.selected_images, x ∈ activeView s) →
      ∀ x ∈ (invert_selection s).selected_images, x ∈ activeView (invert_selection s)) ∧
    ((∀ x ∈ s.selected_images, x ∈ activeView s) → img ∈ activeView s →
      ∀ x ∈ (image_clicked s img).selected_images, x ∈ activeView (image_clicked s img)) ∧
    (∀ ok hasCap dest, (move_selection s ok hasCap dest).1.selected_images = []) := by
  refine ⟨?_, rfl, ?_, ?_, ?_⟩
  · intro x hx
    by_cases hfa : s.filter_active = true
    · simp [select_all_images, activeView, hfa] at hx ⊢
      exact hx
    · simp [select_all_images, activeView, hfa] at hx ⊢
      exact hx
  · intro hsub x hx
    by_cases hfa : s.filter_active = true
    · simp [invert_selection, activeView, hfa] at hx ⊢
      rcases (mem_symmDiffList _ _ x).mp hx with ⟨h1, _⟩ | ⟨h1, _⟩
      · exact h1
      · have := hsub x h1
        simpa [activeView, hfa] using this
    · simp [invert_selection, activeView, hfa] at hx ⊢
      rcases (mem_symmDiffList _ _ x).mp hx with ⟨h1, _⟩ | ⟨h1, _⟩
      · exact h1
      · have := hsub x h1
        simpa [activeView, hfa] using this
  · intro hsub himg x hx
    unfold image_clicked at hx
    have hview : activeView (image_clicked s img) = activeView s := by
      unfold image_clicked activeView
      split <;> rfl
    rw [hview]
    by_cases hsel : img ∈ s.selected_images
    · rw [if_pos hsel] at hx
      simp only at hx
      exact hsub x ((eraseFirst_sublist _ _).mem hx)
    · rw [if_neg hsel] at hx
      simp only at hx
      rcases List.mem_append.mp hx with hx2 | hx2
      · exact hsub x hx2
      · rcases List.mem_singleton.mp hx2 with rfl
        exact himg
  · intro ok hasCap dest
    unfold move_selection
    split
    · rename_i hsel
      exact hsel
    · rfl

/-- Witness for C8 at the example loaded state (no filter active, whole
catalog selected). -/
theorem c8_selection_subset_witness :
    (∀ x ∈ exampleLoadedState.selected_images, x ∈ activeView exampleLoadedState) ∧
    "/d/a.jpg" ∈ activeView exampleLoadedState ∧
    (∀ x ∈ (invert_selection exampleLoadedState).selected_images,
       x ∈ activeView (invert_selection exampleLoadedState)) ∧
    (∀ x ∈ (image_clicked exampleLoadedState "/d/a.jpg").selected_images,
       x ∈ activeView (image_clicked exampleLoadedState "/d/a.jpg")) ∧
    (move_selection exampleLoadedState (fun _ => true) (fun _ => true) []).1.selected_images = [] := by
  refine ⟨by decide, by decide, ?_, ?_, ?_⟩
  · exact (c8_selection_subset_of_active_view exampleLoadedState "/d/a.jpg").2.2.1 (by decide)
  · exact (c8_selection_subset_of_active_view exampleLoadedState "/d/a.jpg").2.2.2.1
      (by decide) (by decide)
  · exact (c8_selection_subset_of_active_view exampleLoadedState "/d/a.jpg").2.2.2.2
      (fun _ => true) (fun _ => true) []

/-! ### Sorting orders: totality and transitivity -/

theorem charListLe_total (x y : List Char) :
    charListLe x y = true ∨ charListLe y x = true := by
  induction x generalizing y with
  | nil => exact Or.inl rfl
  | cons a as ih =>
    cases y with
    | nil => exact Or.inr rfl
    | cons b bs =>
      by_cases hab : a = b
      · subst hab
        rcases ih bs with h | h
        · exact Or.inl (by simpa [charListLe] using h)
        · exact Or.inr (by simpa [charListLe] using h)
      · have hba : ¬ b = a := fun he => hab he.symm
        rcases lt_or_gt_of_ne (show a ≠ b from hab) with h | h
        · exact Or.inl (by simp [charListLe, hab, h])
        · exact Or.inr (by simp [charListLe, hba, h])

theorem charListLe_trans {x y z : List Char} (hxy : charListLe x y = true)
    (hyz : charListLe y z = true) : charListLe x z = true := by
  induction x generalizing y z with
  | nil => rfl
  | cons a as ih =>
    cases y with
    | nil => simp [charListLe] at hxy
    | cons b bs =>
      cases z with
      | nil => simp [charListLe] at hyz
      | cons c cs =>
        by_cases hab : a = b <;> by_cases hbc : b = c
        · subst hab
          subst hbc
          rw [charListLe, if_pos rfl] at hxy hyz ⊢
          exact ih hxy hyz
        · subst hab
          rw [charListLe, if_neg hbc] at hyz
          rw [charListLe, if_neg hbc]
          exact hyz
        · subst hbc
          rw [charListLe, if_neg hab] at hxy
          rw [charListLe, if_neg hab]
          exact hxy
        · rw [charListLe, if_neg hab] at hxy
          rw [charListLe, if_neg hbc] at hyz
          have hac : a < c :=
            lt_trans (of_decide_eq_true hxy) (of_decide_eq_true hyz)
          have hne : ¬ a = c := ne_of_lt hac
          rw [charListLe, if_neg hne]
          exact decide_eq_true hac

theorem strLe_total (a b : String) : strLe a b ∨ strLe b a :=
  charListLe_total a.toList b.toList

theorem strLe_trans {a b c : String} (h1 : strLe a b) (h2 : strLe b c) :
    strLe a c := charListLe_trans h1 h2

instance (freq : List (String × Nat)) : IsTotal String (keyOrderHigh freq) := by
  constructor
  intro a b
  unfold keyOrderHigh
  rcases Nat.lt_trichotomy (fget freq a) (fget freq b) with h | h | h
  · exact Or.inr (Or.inl h)
  · rcases strLe_total a b with hs | hs
    · exact Or.inl (Or.inr ⟨h, hs⟩)
    · exact Or.inr (Or.inr ⟨h.symm, hs⟩)
  · exact Or.inl (Or.inl h)

instance (freq : List (String × Nat)) : IsTrans String (keyOrderHigh freq) := by
  constructor
  intro a b c hab hbc
  unfold keyOrderHigh at hab hbc ⊢
  rcases hab with h1 | ⟨h1, hs1⟩ <;> rcases hbc with h2 | ⟨h2, hs2⟩
  · exact Or.inl (Nat.lt_trans h2 h1)
  · exact Or.inl (h2 ▸ h1)
  · exact Or.inl (by omega)
  · exact Or.inr ⟨h1.trans h2, strLe_trans hs1 hs2⟩

instance (freq : List (String × Nat)) : IsTotal String (keyOrderLow freq) := by
  constructor
  intro a b
  unfold keyOrderLow
  rcases Nat.lt_trichotomy (fget freq a) (fget freq b) with h | h | h
  · exact Or.inl (Or.inl h)
  · rcases strLe_total a b with hs | hs
    · exact Or.inl (Or.inr ⟨h, hs⟩)
    · exact Or.inr (Or.inr ⟨h.symm, hs⟩)
  · exact Or.inr (Or.inl h)

instance (freq : List (String × Nat)) : IsTrans String (keyOrderLow freq) := by
  constructor
  intro a b c hab hbc
  unfold keyOrderLow at hab hbc ⊢
  rcases hab with h1 | ⟨h1, hs1⟩ <;> rcases hbc with h2 | ⟨h2, hs2⟩
  · exact Or.inl (Nat.lt_trans h1 h2)
  · exact Or.inl (by omega)
  · exact Or.inl (h1 ▸ h2)
  · exact Or.inr ⟨h1.trans h2, strLe_trans hs1 hs2⟩

theorem capGet_aset_self (caps : List (String × List String)) (k : String)
    (v : List String) : capGet (aset caps k v) k = v := by
  simp [capGet, alookup_aset_self]

/-! ### C9: tag sorting for the focused image -/

/-- C9 counterexample: on equal frequencies `sort_tags_high` orders the
tags alphabetically ascending (`["a", "b"]`), while sorting by the key
`(frequency, tag)` descending, as the claim reads, would give
`["b", "a"]`. -/
theorem c9_descending_tiebreak_counterexample :
    capGet (sort_tags_high c9FocusState).captions "/x/f.png" = ["a", "b"] ∧
    List.insertionSort (keyOrderDescLex c9FocusState.tag_frequency)
      (capGet c9FocusState.captions "/x/f.png") = ["b", "a"] ∧
    ¬ (["a", "b"] : List String) = ["b", "a"] := by
  refine ⟨by decide, by decide, by decide⟩

/-- C9 (amended): for the focused image, `sort_tags_high` replaces its
caption by a permutation sorted by frequency descending with ties
broken by the tag ascending, `sort_tags_low` by the key
`(frequency, tag)` lexicographically ascending, and both persist the
new order to the on-disk caption file as the canonical joined form. -/
theorem c9_sort_tags_for_image (s : AppState) (p : String)
    (hf : s.focus_image_path = some p) (hp : ¬ p = "")
    (hk : p ∈ akeys s.captions) :
    ((capGet (sort_tags_high s).captions p).Perm (capGet s.captions p) ∧
     List.Sorted (keyOrderHigh s.tag_frequency) (capGet (sort_tags_high s).captions p) ∧
     alookup (sort_tags_high s).caption_files (captionPath p) =
       some (String.intercalate ", " (capGet (sort_tags_high s).captions p))) ∧
    ((capGet (sort_tags_low s).captions p).Perm (capGet s.captions p) ∧
     List.Sorted (keyOrderLow s.tag_frequency) (capGet (sort_tags_low s).captions p) ∧
     alookup (sort_tags_low s).caption_files (captionPath p) =
       some (String.intercalate ", " (capGet (sort_tags_low s).captions p))) := by
  have hhigh : (sort_tags_high s).captions =
      aset s.captions p (List.insertionSort (keyOrderHigh s.tag_frequency) (capGet s.captions p)) ∧
      (sort_tags_high s).caption_files =
        aset s.caption_files (captionPath p)
          (String.intercalate ", "
            (capGet (aset s.captions p
              (List.insertionSort (keyOrderHigh s.tag_frequency) (capGet s.captions p))) p)) := by
    simp only [sort_tags_high, hf]
    rw [if_pos (show ¬ p = "" ∧ p ∈ akeys s.captions from ⟨hp, hk⟩)]
    exact ⟨rfl, rfl⟩
  have hlow : (sort_tags_low s).captions =
      aset s.captions p (List.insertionSort (keyOrderLow s.tag_frequency) (capGet s.captions p)) ∧
      (sort_tags_low s).caption_files =
        aset s.caption_files (captionPath p)
          (String.intercalate ", "
            (capGet (aset s.captions p
              (List.insertionSort (keyOrderLow s.tag_frequency) (capGet s.captions p))) p)) := by
    simp only [sort_tags_low, hf]
    rw [if_pos (show ¬ p = "" ∧ p ∈ akeys s.captions from ⟨hp, hk⟩)]
    exact ⟨rfl, rfl⟩
  have hgetHigh : capGet (sort_tags_high s).captions p =
      List.insertionSort (keyOrderHigh s.tag_frequency) (capGet s.captions p) := by
    rw [hhigh.1]
    simp [capGet, alookup_aset_self]
  have hgetLow : capGet (sort_tags_low s).captions p =
      List.insertionSort (keyOrderLow s.tag_frequency) (capGet s.captions p) := by
    rw [hlow.1]
    simp [capGet, alookup_aset_self]
  refine ⟨⟨?_, ?_, ?_⟩, ⟨?_, ?_, ?_⟩⟩
  · rw [hgetHigh]
    exact List.perm_insertionSort _ _
  · rw [hgetHigh]
    exact List.sorted_insertionSort _ _
  · rw [hhigh.2, alookup_aset_self, hgetHigh, capGet_aset_self]
  · rw [hgetLow]
    exact List.perm_insertionSort _ _
  · rw [hgetLow]
    exact List.sorted_insertionSort _ _
  · rw [hlow.2, alookup_aset_self, hgetLow, capGet_aset_self]

/-- Witness for C9 at a concrete focused state. -/
theorem c9_sort_tags_for_image_witness :
    (c9FocusState.focus_image_path = some "/x/f.png" ∧
     ¬ ("/x/f.png" : String) = "" ∧ "/x/f.png" ∈ akeys c9FocusState.captions) ∧
    (((capGet (sort_tags_high c9FocusState).captions "/x/f.png").Perm
        (capGet c9FocusState.captions "/x/f.png") ∧
      List.Sorted (keyOrderHigh c9FocusState.tag_frequency)
        (capGet (sort_tags_high c9FocusState).captions "/x/f.png") ∧
      alookup (sort_tags_high c9FocusState).caption_files (captionPath "/x/f.png") =
        some (String.intercalate ", " (capGet (sort_tags_high c9FocusState).captions "/x/f.png"))) ∧
     ((capGet (sort_tags_low c9FocusState).captions "/x/f.png").Perm
        (capGet c9FocusState.captions "/x/f.png") ∧
      List.Sorted (keyOrderLow c9FocusState.tag_frequency)
        (capGet (sort_tags_low c9FocusState).captions "/x/f.png") ∧
      alookup (sort_tags_low c9FocusState).caption_files (captionPath "/x/f.png") =
        some (String.intercalate ", " (capGet (sort_tags_low c9FocusState).captions "/x/f.png")))) :=
  ⟨⟨by decide, by decide, by decide⟩,
    c9_sort_tags_for_image c9FocusState "/x/f.png" (by decide) (by decide) (by decide)⟩

/-! ### C4: state reconciliation after a move -/

theorem freqMatch_congr {freq : List (String × Nat)} {f g : String → Nat}
    (hfg : ∀ t, f t = g t) (h : FreqMatch freq f) : FreqMatch freq g := by
  refine ⟨h.1, ?_, ?_⟩
  · intro p hp
    rw [← hfg p.1]
    exact h.2.1 p hp
  · intro t ht
    rw [← hfg t] at ht
    exact h.2.2 t ht

theorem freqMatch_of_freqOk {caps : List (String × List String)}
    {freq : List (String × Nat)} (h : FreqOk caps freq) :
    FreqMatch freq (countCap caps) := by
  refine ⟨h.1, h.2.1, ?_⟩
  intro t ht
  have : 0 < countCap caps t := Nat.pos_of_ne_zero ht
  rw [countCap, List.countP_pos_iff] at this
  obtain ⟨p, hp, htp⟩ := this
  exact h.2.2 p hp t (by simpa using htp)

theorem freqOk_of_freqMatch {caps : List (String × List String)}
    {freq : List (String × Nat)} (h : FreqMatch freq (countCap caps)) :
    FreqOk caps freq := by
  refine ⟨h.1, h.2.1, ?_⟩
  intro p hp t ht
  exact h.2.2 t (Nat.pos_iff_ne_zero.mp (countCap_pos_of_mem hp ht))

/-- Decrementing one tag through the guarded defaultdict code preserves
the match, against the count function lowered at that tag. -/
theorem decTag_match {freq : List (String × Nat)} {f : String → Nat}
    {t0 : String} (h : FreqMatch freq f) (ht : ¬ f t0 = 0) :
    FreqMatch (decTag freq t0) (fun t => if t = t0 then f t - 1 else f t) := by
  have hkey : t0 ∈ akeys freq := h.2.2 t0 ht
  obtain ⟨v, hl⟩ := alookup_isSome_of_mem_akeys hkey
  have hv := h.2.1 _ (mem_of_alookup_eq_some hl)
  have hvf : v = f t0 := hv.1
  have hvpos : 0 < v := Nat.pos_of_ne_zero hv.2
  unfold decTag
  simp only [freqRead, hl]
  rw [if_pos hvpos]
  have hksA : akeys (aset freq t0 (v - 1)) = akeys freq := akeys_aset_of_mem hkey _
  have hnA : (akeys (aset freq t0 (v - 1))).Nodup := by
    rw [hksA]
    exact h.1
  by_cases hz : v - 1 = 0
  · rw [if_pos hz]
    have hentries : ∀ p, p ∈ adel (aset freq t0 (v - 1)) t0 ↔
        p ∈ freq ∧ ¬ p.1 = t0 := by
      intro p
      rw [mem_adel_iff_of_nodup hnA]
      constructor
      · rintro ⟨hp, hne⟩
        rcases (mem_aset_iff_of_nodup h.1 _ _ _).mp hp with rfl | ⟨hp2, hne2⟩
        · exact absurd rfl hne
        · exact ⟨hp2, hne⟩
      · rintro ⟨hp, hne⟩
        exact ⟨(mem_aset_iff_of_nodup h.1 _ _ _).mpr (Or.inr ⟨hp, hne⟩), hne⟩
    refine ⟨List.Nodup.sublist (akeys_adel_sublist _ _) hnA, ?_, ?_⟩
    · intro p hp
      rcases (hentries p).mp hp with ⟨hp2, hne⟩
      have := h.2.1 p hp2
      simp only [if_neg hne]
      exact this
    · intro t htf
      by_cases ht0 : t = t0
      · subst ht0
        simp at htf
        omega
      · simp only [if_neg ht0] at htf
        rw [mem_akeys_adel_iff hnA, hksA]
        exact ⟨h.2.2 t htf, ht0⟩
  · rw [if_neg hz]
    refine ⟨hnA, ?_, ?_⟩
    · intro p hp
      rcases (mem_aset_iff_of_nodup h.1 _ _ _).mp hp with rfl | ⟨hp2, hne⟩
      · constructor
        · show v - 1 = if t0 = t0 then f t0 - 1 else f t0
          rw [if_pos rfl]
          omega
        · exact hz
      · have := h.2.1 p hp2
        simp only [if_neg hne]
        exact this
    · intro t htf
      by_cases ht0 : t = t0
      · subst ht0
        exact mem_akeys_aset_self _ _ _
      · simp only [if_neg ht0] at htf
        rw [hksA]
        exact h.2.2 t htf

/-- Folding the per-tag decrement over a duplicate-free list of tags of
nonzero count lowers the count function exactly on that list. -/
theorem foldl_decTag_match {tags : List String} {freq : List (String × Nat)}
    {f : String → Nat} (hnd : tags.Nodup) (hpos : ∀ t ∈ tags, ¬ f t = 0)
    (h : FreqMatch freq f) :
    FreqMatch (tags.foldl decTag freq)
      (fun t => if t ∈ tags then f t - 1 else f t) := by
  induction tags generalizing freq f with
  | nil =>
    refine freqMatch_congr ?_ h
    intro t
    simp
  | cons t0 rest ih =>
    rw [List.foldl_cons]
    rcases List.nodup_cons.mp hnd with ⟨hni, hnr⟩
    have h1 := decTag_match h (hpos t0 (List.mem_cons_self _ _))
    have h2 := ih hnr ?_ h1
    · refine freqMatch_congr ?_ h2
      intro t
      by_cases ht0 : t = t0
      · subst ht0
        simp [hni]
      · by_cases htr : t ∈ rest
        · simp [htr, ht0]
        · simp [htr, ht0]
    · intro t htr
      have hne : ¬ t = t0 := by
        intro he
        exact hni (he ▸ htr)
      simp only [if_neg hne]
      exact hpos t (List.mem_cons_of_mem _ htr)

theorem inv0_of_inv {s : AppState} (h : Inv s) : Inv0 s :=
  ⟨h.1, h.2.1, h.2.2.2.1, h.2.2.2.2.1, h.2.2.2.2.2.1⟩

theorem removeImageState_inv0 {s : AppState} (img : String) (h : Inv0 s) :
    Inv0 (removeImageState s img) := by
  obtain ⟨hcaps, hfreq, hnimg, hci, hic⟩ := h
  have himgs_nodup : (if img ∈ s.images then eraseFirst s.images img else s.images).Nodup := by
    split
    · exact List.Nodup.sublist (eraseFirst_sublist _ _) hnimg
    · exact hnimg
  unfold removeImageState
  by_cases hik : img ∈ akeys s.captions
  case neg =>
    rw [if_neg hik]
    refine ⟨hcaps, hfreq, himgs_nodup, ?_, ?_⟩
    · intro p hp
      have hpi := hci p hp
      have hne : ¬ p.1 = img := by
        intro he
        exact hik (he ▸ List.mem_map_of_mem (fun x => x.1) hp)
      split
      · rw [mem_eraseFirst_of_ne hne]
        exact hpi
      · exact hpi
    · intro i hi
      split at hi
      · exact hic i ((eraseFirst_sublist _ _).mem hi)
      · exact hic i hi
  rw [if_pos hik]
  obtain ⟨b, hlo⟩ := alookup_isSome_of_mem_akeys hik
  have hb : capGet s.captions img = b := by simp [capGet, hlo]
  have hbmem : (img, b) ∈ s.captions := mem_of_alookup_eq_some hlo
  have hbnodup : b.Nodup := hcaps.2 _ hbmem
  have hmatch := freqMatch_of_freqOk hfreq
  have hpos : ∀ t ∈ b, ¬ countCap s.captions t = 0 := by
    intro t ht
    exact Nat.pos_iff_ne_zero.mp (countCap_pos_of_mem hbmem ht)
  have hfold := foldl_decTag_match hbnodup hpos hmatch
  have hmatch' : FreqMatch ((capGet s.captions img).foldl decTag s.tag_frequency)
      (countCap (adel s.captions img)) := by
    rw [hb]
    refine freqMatch_congr ?_ hfold
    intro t
    by_cases ht : t ∈ b
    · simp only [if_pos ht]
      have := countCap_adel_mem hlo ht
      omega
    · simp only [if_neg ht]
      exact (countCap_adel_not_mem hlo ht).symm
  refine ⟨⟨?_, ?_⟩, freqOk_of_freqMatch hmatch', himgs_nodup, ?_, ?_⟩
  · exact List.Nodup.sublist (akeys_adel_sublist _ _) hcaps.1
  · intro p hp
    exact hcaps.2 p ((adel_sublist _ _).mem hp)
  · intro p hp
    rcases (mem_adel_iff_of_nodup hcaps.1 _ _).mp hp with ⟨hp2, hne⟩
    have hpi := hci p hp2
    split
    · rw [mem_eraseFirst_of_ne hne]
      exact hpi
    · exact hpi
  · intro i hi
    have himgmem : img ∈ s.images := hci (img, b) hbmem
    rw [if_pos himgmem] at hi
    have hii : i ∈ s.images := (eraseFirst_sublist _ _).mem hi
    have hne : ¬ i = img := by
      intro he
      rw [he] at hi
      exact not_mem_eraseFirst_self hnimg img hi
    rw [mem_akeys_adel_iff hcaps.1]
    exact ⟨hic i hii, hne⟩

theorem foldl_removeImageState_inv0 {toRem : List String} {s : AppState}
    (h : Inv0 s) : Inv0 (toRem.foldl removeImageState s) := by
  induction toRem generalizing s with
  | nil => exact h
  | cons a rest ih =>
    rw [List.foldl_cons]
    exact ih (removeImageState_inv0 a h)

theorem removeImageState_images_sub {s : AppState} {img x : String}
    (hx : x ∈ (removeImageState s img).images) : x ∈ s.images := by
  unfold removeImageState at hx
  split at hx <;> simp only at hx <;> split at hx <;>
    first
      | exact (eraseFirst_sublist _ _).mem hx
      | exact hx

theorem removeImageState_keys_sub {s : AppState} {img x : String}
    (hx : x ∈ akeys (removeImageState s img).captions) :
    x ∈ akeys s.captions := by
  unfold removeImageState at hx
  split at hx <;> simp only at hx
  · exact (akeys_adel_sublist _ _).mem hx
  · exact hx

theorem removeImageState_keeps {s : AppState} {img x : String}
    (hne : ¬ x = img) (hx : x ∈ s.images) :
    x ∈ (removeImageState s img).images := by
  unfold removeImageState
  split <;> simp only <;> split
  · rw [mem_eraseFirst_of_ne hne]
    exact hx
  · exact hx
  · rw [mem_eraseFirst_of_ne hne]
    exact hx
  · exact hx

theorem removeImageState_removes {s : AppState} (img : String) (h : Inv0 s) :
    img ∉ (removeImageState s img).images ∧
    img ∉ akeys (removeImageState s img).captions := by
  obtain ⟨hcaps, hfreq, hnimg, hci, hic⟩ := h
  unfold removeImageState
  by_cases hik : img ∈ akeys s.captions
  · rw [if_pos hik]
    constructor
    · simp only
      split
      · exact not_mem_eraseFirst_self hnimg img
      · rename_i hni
        exact hni
    · simp only
      rw [mem_akeys_adel_iff hcaps.1]
      rintro ⟨_, hne⟩
      exact hne rfl
  · rw [if_neg hik]
    constructor
    · simp only
      split
      · exact not_mem_eraseFirst_self hnimg img
      · rename_i hni
        exact hni
    · exact hik

theorem foldl_removeImageState_keeps {toRem : List String} {s : AppState}
    {x : String} (hnx : x ∉ toRem) (hx : x ∈ s.images) :
    x ∈ (toRem.foldl removeImageState s).images := by
  induction toRem generalizing s with
  | nil => exact hx
  | cons a rest ih =>
    rw [List.foldl_cons]
    have hne : ¬ x = a := by
      intro he
      exact hnx (he ▸ List.mem_cons_self _ _)
    exact ih (fun hr => hnx (List.mem_cons_of_mem _ hr))
      (removeImageState_keeps hne hx)

theorem foldl_removeImageState_absent {toRem : List String} {s : AppState}
    {x : String} (hxi : x ∉ s.images) (hxk : x ∉ akeys s.captions) :
    x ∉ (toRem.foldl removeImageState s).images ∧
    x ∉ akeys (toRem.foldl removeImageState s).captions := by
  induction toRem generalizing s with
  | nil => exact ⟨hxi, hxk⟩
  | cons a rest ih =>
    rw [List.foldl_cons]
    exact ih (fun hc => hxi (removeImageState_images_sub hc))
      (fun hc => hxk (removeImageState_keys_sub hc))

theorem foldl_removeImageState_removes {toRem : List String} {s : AppState}
    {x : String} (h : Inv0 s) (hx : x ∈ toRem) :
    x ∉ (toRem.foldl removeImageState s).images ∧
    x ∉ akeys (toRem.foldl removeImageState s).captions := by
  induction toRem generalizing s with
  | nil => simp at hx
  | cons a rest ih =>
    rw [List.foldl_cons]
    by_cases hxa : x = a
    · subst hxa
      obtain ⟨h1, h2⟩ := removeImageState_removes x h
      exact foldl_removeImageState_absent h1 h2
    · rcases List.mem_cons.mp hx with rfl | hx2
      · exact absurd rfl hxa
      · exact ih (removeImageState_inv0 a h) hx2

/-- C4 counterexample: if `a.jpg` moves successfully and `b.jpg`'s move
fails, `b.jpg` stays in the Catalog yet is still removed from the
SelectionSet, because `move_selection` clears the whole selection —
so removal from the SelectionSet is not restricted to the successfully
relocated images. -/
theorem c4_failed_move_still_deselected :
    "/d/b.jpg" ∈ c4MoveState.selected_images ∧
    (fun i => i == "/d/a.jpg") "/d/b.jpg" = false ∧
    "/d/b.jpg" ∈
      (move_selection c4MoveState (fun i => i == "/d/a.jpg") (fun _ => true) []).1.images ∧
    "/d/b.jpg" ∉
      (move_selection c4MoveState (fun i => i == "/d/a.jpg") (fun _ => true) []).1.selected_images := by
  refine ⟨by decide, by decide, by decide, by decide⟩

/-- C4 (amended): on move, every successfully relocated image — and
only those — is removed from the Catalog and its caption entry dropped;
the TagIndex again counts exactly the remaining images, holds no
zero-count entry, and `all_tags` holds exactly the tags of positive
count (zero-count tags pruned); the SelectionSet is cleared wholesale
(successfully moved images are removed from it, but so are failed
ones); `copy_selection` never mutates the application state. -/
theorem c4_move_state_reconciliation (s : AppState) (ok hasCap : String → Bool)
    (dest : List String) (h : Inv s) :
    (∀ img ∈ s.selected_images, ok img = true →
      img ∉ (move_selection s ok hasCap dest).1.images ∧
      img ∉ akeys (move_selection s ok hasCap dest).1.captions) ∧
    (∀ img ∈ s.images, ¬ (img ∈ s.selected_images ∧ ok img = true) →
      img ∈ (move_selection s ok hasCap dest).1.images) ∧
    (∀ t, fget (move_selection s ok hasCap dest).1.tag_frequency t =
      countImages (move_selection s ok hasCap dest).1.captions
        (move_selection s ok hasCap dest).1.images t) ∧
    (∀ p ∈ (move_selection s ok hasCap dest).1.tag_frequency, ¬ p.2 = 0) ∧
    (∀ t, t ∈ (move_selection s ok hasCap dest).1.all_tags ↔
      0 < countImages (move_selection s ok hasCap dest).1.captions
        (move_selection s ok hasCap dest).1.images t) ∧
    (move_selection s ok hasCap dest).1.selected_images = [] ∧
    (∀ okc hasCapc fs, (copy_selection s okc hasCapc fs).1 = s) := by
  have hcopy : ∀ okc hasCapc fs, (copy_selection s okc hasCapc fs).1 = s := by
    intro okc hasCapc fs
    unfold copy_selection
    split <;> rfl
  by_cases hsel : s.selected_images = []
  · have hmv : move_selection s ok hasCap dest = (s, dest) := by
      unfold move_selection
      rw [if_pos hsel]
    rw [hmv]
    obtain ⟨f1, f2, f3⟩ := freqSpec_of_inv h
    refine ⟨?_, ?_, f1, f2, f3, hsel, hcopy⟩
    · intro img himg
      rw [hsel] at himg
      simp at himg
    · intro img himg _
      exact himg
  · have hmv : (move_selection s ok hasCap dest).1 =
        moveReconcile s (s.selected_images.filter ok) := by
      unfold move_selection
      rw [if_neg hsel]
    rw [hmv]
    have h0 : Inv0 ((s.selected_images.filter ok).foldl removeImageState s) :=
      foldl_removeImageState_inv0 (inv0_of_inv h)
    have hinv2 : Inv (moveReconcile s (s.selected_images.filter ok)) := by
      obtain ⟨hcaps, hfreq, hnimg, hci, hic⟩ := h0
      refine ⟨hcaps, hfreq, ⟨?_, ?_⟩, ⟨hnimg, hci, hic, ?_⟩⟩
      · intro t ht
        exact ht
      · intro p hp
        exact List.mem_map_of_mem _ hp
      · intro i hi
        exact absurd hi (List.not_mem_nil i)
    obtain ⟨f1, f2, f3⟩ := freqSpec_of_inv hinv2
    refine ⟨?_, ?_, f1, f2, f3, rfl, hcopy⟩
    · intro img himg hok
      have hmem : img ∈ s.selected_images.filter ok :=
        List.mem_filter.mpr ⟨himg, hok⟩
      exact foldl_removeImageState_removes (inv0_of_inv h) hmem
    · intro img himg hnot
      have hnmem : img ∉ s.selected_images.filter ok := by
        intro hc
        exact hnot ⟨(List.mem_filter.mp hc).1, (List.mem_filter.mp hc).2⟩
      exact foldl_removeImageState_keeps hnmem himg

/-- Witness for C4: moving the only image carrying tag "rare". -/
theorem c4_move_state_reconciliation_witness :
    Inv c4MoveState ∧
    ((∀ img ∈ c4MoveState.selected_images, (fun _ => true) img = true →
       img ∉ (move_selection c4MoveState (fun _ => true) (fun _ => true) []).1.images ∧
       img ∉ akeys (move_selection c4MoveState (fun _ => true) (fun _ => true) []).1.captions) ∧
     (∀ img ∈ c4MoveState.images,
       ¬ (img ∈ c4MoveState.selected_images ∧ (fun _ => true) img = true) →
       img ∈ (move_selection c4MoveState (fun _ => true) (fun _ => true) []).1.images) ∧
     (∀ t, fget (move_selection c4MoveState (fun _ => true) (fun _ => true) []).1.tag_frequency t =
       countImages (move_selection c4MoveState (fun _ => true) (fun _ => true) []).1.captions
         (move_selection c4MoveState (fun _ => true) (fun _ => true) []).1.images t) ∧
     (∀ p ∈ (move_selection c4MoveState (fun _ => true) (fun _ => true) []).1.tag_frequency,
       ¬ p.2 = 0) ∧
     (∀ t, t ∈ (move_selection c4MoveState (fun _ => true) (fun _ => true) []).1.all_tags ↔
       0 < countImages (move_selection c4MoveState (fun _ => true) (fun _ => true) []).1.captions
         (move_selection c4MoveState (fun _ => true) (fun _ => true) []).1.images t) ∧
     (move_selection c4MoveState (fun _ => true) (fun _ => true) []).1.selected_images = [] ∧
     (∀ okc hasCapc fs, (copy_selection c4MoveState okc hasCapc fs).1 = c4MoveState)) :=
  ⟨by decide, c4_move_state_reconciliation c4MoveState (fun _ => true) (fun _ => true) [] (by decide)⟩

/-! ### C5: collision-safe renaming -/

theorem findFree_spec {dest : List String} {root extn : String} :
    ∀ (fuel i : Nat), (∃ k, k < fuel ∧ candName root extn (i + k) ∉ dest) →
      ∃ k, findFree dest root extn i fuel = candName root extn (i + k) ∧
        candName root extn (i + k) ∉ dest ∧
        ∀ j, j < k → candName root extn (i + j) ∈ dest := by
  intro fuel
  induction fuel with
  | zero =>
    intro i h
    obtain ⟨k, hk, _⟩ := h
    exact absurd hk (Nat.not_lt_zero k)
  | succ fuel ih =>
    intro i h
    rw [findFree]
    by_cases hc : candName root extn i ∈ dest
    · rw [if_pos hc]
      obtain ⟨k, hk, hfree⟩ := h
      have hk0 : ¬ k = 0 := by
        intro he
        rw [he, Nat.add_zero] at hfree
        exact hfree hc
      obtain ⟨k', rfl⟩ := Nat.exists_eq_succ_of_ne_zero hk0
      have hprev : ∃ k, k < fuel ∧ candName root extn (i + 1 + k) ∉ dest := by
        refine ⟨k', by omega, ?_⟩
        have : i + 1 + k' = i + (k' + 1) := by omega
        rw [this]
        exact hfree
      obtain ⟨k'', heq, hfree'', hall⟩ := ih (i + 1) hprev
      refine ⟨k'' + 1, ?_, ?_, ?_⟩
      · rw [heq]
        congr 1
        omega
      · have : i + (k'' + 1) = i + 1 + k'' := by omega
        rw [this]
        exact hfree''
      · intro j hj
        cases j with
        | zero => simpa using hc
        | succ j' =>
          have : i + (j' + 1) = i + 1 + j' := by omega
          rw [this]
          exact hall j' (by omega)
    · rw [if_neg hc]
      refine ⟨0, by rw [Nat.add_zero], by rw [Nat.add_zero]; exact hc, ?_⟩
      intro j hj
      exact absurd hj (Nat.not_lt_zero j)

/-- Among the first `dest.length + 1` candidate names (pairwise
distinct by hypothesis) at least one is absent from the destination. -/
theorem cands_free_exists {dest : List String} {root extn : String}
    (hnd : ((List.range (dest.length + 1)).map
      (fun k => candName root extn (1 + k))).Nodup) :
    ∃ k, k < dest.length + 1 ∧ candName root extn (1 + k) ∉ dest := by
  by_contra hcon
  push_neg at hcon
  have hsub : ∀ x ∈ (List.range (dest.length + 1)).map
      (fun k => candName root extn (1 + k)), x ∈ dest := by
    intro x hx
    rcases List.mem_map.mp hx with ⟨k, hk, rfl⟩
    exact hcon k (List.mem_range.mp hk)
  have hcard1 : ((List.range (dest.length + 1)).map
      (fun k => candName root extn (1 + k))).toFinset.card = dest.length + 1 := by
    rw [List.toFinset_card_of_nodup hnd]
    simp
  have hsubF : ((List.range (dest.length + 1)).map
      (fun k => candName root extn (1 + k))).toFinset ⊆ dest.toFinset := by
    intro x hx
    rw [List.mem_toFinset] at hx ⊢
    exact hsub x hx
  have := Finset.card_le_card hsubF
  have hle := List.toFinset_card_le dest
  omega

/-- C5: the destination name is the base name when free, otherwise
`root_<n>ext` for the least `n ≥ 1` whose candidate is free (the
distinctness of candidate names is an explicit hypothesis discharged by
computation); the caption's destination name is always the image's
resolved base root plus `.txt`, never collision-resolved on its own;
and moving two images both named `cat.png` into an empty destination
produces exactly `cat.png`/`cat.txt` and `cat_1.png`/`cat_1.txt`. -/
theorem c5_collision_renaming (dest : List String) (base root extn : String)
    (hnd : ((List.range (dest.length + 1)).map
      (fun k => candName root extn (1 + k))).Nodup) :
    (base ∉ dest → resolveName dest base root extn = base) ∧
    (base ∈ dest → ∃ n, 1 ≤ n ∧
      resolveName dest base root extn = candName root extn n ∧
      candName root extn n ∉ dest ∧
      ∀ m, 1 ≤ m → m < n → candName root extn m ∈ dest) ∧
    (∀ d img, (destNamesFor d img true).2 =
      some ((splitExtPath (destNamesFor d img true).1).1 ++ ".txt")) ∧
    (move_selection c5TwoCatsState (fun _ => true) (fun _ => true) []).2 =
      ["cat.png", "cat.txt", "cat_1.png", "cat_1.txt"] := by
  refine ⟨?_, ?_, ?_, ?_⟩
  · intro hfree
    unfold resolveName
    rw [if_neg hfree]
  · intro hbase
    unfold resolveName
    rw [if_pos hbase]
    obtain ⟨k, hk, hfree⟩ := cands_free_exists hnd
    obtain ⟨k', heq, hfree', hall⟩ :=
      findFree_spec (dest.length + 1) 1 ⟨k, hk, hfree⟩
    refine ⟨1 + k', by omega, heq, hfree', ?_⟩
    intro m hm1 hmk
    have : m = 1 + (m - 1) := by omega
    rw [this]
    exact hall (m - 1) (by omega)
  · intro d img
    rfl
  · decide

/-- Witness for C5 at the concrete collision from the claim's scenario:
the destination already holds `cat.png` and `cat.txt`. -/
theorem c5_collision_renaming_witness :
    ((List.range (["cat.png", "cat.txt"].length + 1)).map
      (fun k => candName "cat" ".png" (1 + k))).Nodup ∧
    (("cat.png" : String) ∉ ["cat.png", "cat.txt"] →
      resolveName ["cat.png", "cat.txt"] "cat.png" "cat" ".png" = "cat.png") ∧
    (("cat.png" : String) ∈ ["cat.png", "cat.txt"] → ∃ n, 1 ≤ n ∧
      resolveName ["cat.png", "cat.txt"] "cat.png" "cat" ".png" = candName "cat" ".png" n ∧
      candName "cat" ".png" n ∉ ["cat.png", "cat.txt"] ∧
      ∀ m, 1 ≤ m → m < n → candName "cat" ".png" m ∈ ["cat.png", "cat.txt"]) ∧
    (∀ d img, (destNamesFor d img true).2 =
      some ((splitExtPath (destNamesFor d img true).1).1 ++ ".txt")) ∧
    (move_selection c5TwoCatsState (fun _ => true) (fun _ => true) []).2 =
      ["cat.png", "cat.txt", "cat_1.png", "cat_1.txt"] := by
  have h := c5_collision_renaming ["cat.png", "cat.txt"] "cat.png" "cat" ".png" (by decide)
  exact ⟨by decide, h.1, h.2.1, h.2.2.1, h.2.2.2⟩

/-! ### C6: directory loading -/

/-- C6 (evaluation at the failing input): `load_images_thread` takes no
include-subdirectories input — the checkbox is read only by the
folder-tree widget — and walks recursively unconditionally: with the
option off, a subdirectory image is still loaded.  Extension matching
is case-insensitive (`a.PNG` matches), and files come out in the
operating system's listing order, not sorted: a directory listed
`["b.png", "a.png"]` loads in exactly that order. -/
theorem c6_loader_always_recursive_unsorted :
    load_images_thread "/d" c6Tree = ["/d/top.png", "/d/sub/a.PNG"] ∧
    load_images_thread "/d" (.node ["b.png", "a.png"] []) =
      ["/d/b.png", "/d/a.png"] := by
  refine ⟨by decide, by decide⟩

/-! ### C2: stale-load delivery -/

/-- C2 (evaluation at the failing interleaving): request load 0, then
load 1 before load 0's worker finishes; when worker 0 completes, its
`result` signal runs `populate_gallery` with the stale list — nothing
checks for supersession, so the stale result is applied (and after
worker 1 finishes, both loads have been applied, in delivery order). -/
theorem c2_stale_load_result_applied :
    (runLoadTrace [LoadEvent.request 0, LoadEvent.request 1,
      LoadEvent.workerDone 0 ["/a/old.png"]]).gallery = ["/a/old.png"] ∧
    (runLoadTrace [LoadEvent.request 0, LoadEvent.request 1,
      LoadEvent.workerDone 0 ["/a/old.png"],
      LoadEvent.workerDone 1 ["/b/new.png"]]).appliedLoads = [0, 1] := by
  refine ⟨rfl, rfl⟩

/-! ### C7: caption write/read round trip -/

theorem splitComma_exists_cons (cs : List Char) :
    ∃ h tl, splitComma cs = h :: tl := by
  induction cs with
  | nil => exact ⟨[], [], rfl⟩
  | cons c rest ih =>
    obtain ⟨h, tl, heq⟩ := ih
    by_cases hc : c = ','
    · exact ⟨[], splitComma rest, by rw [splitComma, if_pos hc]⟩
    · refine ⟨c :: h, tl, ?_⟩
      rw [splitComma, if_neg hc, heq]

theorem splitComma_comma_cons (cs : List Char) :
    splitComma (',' :: cs) = [] :: splitComma cs := by
  rw [splitComma, if_pos rfl]

theorem splitComma_append {t : List Char} (ht : ',' ∉ t) (cs : List Char) :
    ∃ h tl, splitComma cs = h :: tl ∧ splitComma (t ++ cs) = (t ++ h) :: tl := by
  induction t with
  | nil =>
    obtain ⟨h, tl, heq⟩ := splitComma_exists_cons cs
    exact ⟨h, tl, heq, by simpa using heq⟩
  | cons c t' ih =>
    have hc : ¬ c = ',' := by
      intro he
      exact ht (he ▸ List.mem_cons_self _ _)
    obtain ⟨h, tl, heq, heq2⟩ := ih (fun hm => ht (List.mem_cons_of_mem _ hm))
    refine ⟨h, tl, heq, ?_⟩
    rw [List.cons_append, splitComma, if_neg hc, heq2]
    rfl

theorem splitComma_no_comma {t : List Char} (ht : ',' ∉ t) :
    splitComma t = [t] := by
  obtain ⟨h, tl, heq, heq2⟩ := splitComma_append ht []
  rw [List.append_nil] at heq2
  simp [splitComma] at heq
  rw [heq2, heq.1, heq.2, List.append_nil]

theorem stripChars_space_cons (cs : List Char) :
    stripChars (' ' :: cs) = stripChars cs := by
  unfold stripChars
  rw [List.dropWhile_cons_of_pos]
  simp [isSpaceChar]

theorem readTags_space_cons (cs : List Char) :
    readTags (' ' :: cs) = readTags cs := by
  unfold readTags
  obtain ⟨h2, tl2, heq2, heq3⟩ :=
    @splitComma_append [' '] (by simp) cs
  have heq3' : splitComma (' ' :: cs) = (' ' :: h2) :: tl2 := by
    simpa using heq3
  rw [heq3', heq2]
  simp only [List.map_cons]
  rw [stripChars_space_cons]

theorem readTags_append_comma {t : List Char} (ht : ',' ∉ t)
    (hs : stripChars t = t) (hne : ¬ t = []) (cs : List Char) :
    readTags (t ++ ',' :: cs) = t :: readTags cs := by
  unfold readTags
  obtain ⟨h, tl, heq, heq2⟩ := splitComma_append ht (',' :: cs)
  rw [splitComma_comma_cons] at heq
  injection heq with e1 e2
  rw [heq2, ← e1, List.append_nil, ← e2]
  simp only [List.map_cons, List.filter_cons, hs]
  rw [if_pos (by simpa using hne)]

theorem writeTags_cons_cons (t t2 : List Char) (rest : List (List Char)) :
    writeTags (t :: t2 :: rest) = t ++ (',' :: ' ' :: writeTags (t2 :: rest)) := rfl

/-- C7 (amended): for every caption whose tags are nonempty, already
stripped, and comma-free, writing with `", ".join` and reading back
with split-on-comma / strip / drop-empties returns exactly the same
tag list (hence the same tag set). -/
theorem c7_caption_round_trip (tags : List (List Char))
    (h : ∀ t ∈ tags, ¬ t = [] ∧ stripChars t = t ∧ ',' ∉ t) :
    readTags (writeTags tags) = tags := by
  induction tags with
  | nil => rfl
  | cons t rest ih =>
    obtain ⟨hne, hs, hc⟩ := h t (List.mem_cons_self _ _)
    cases rest with
    | nil =>
      show readTags (writeTags [t]) = [t]
      have hw : writeTags [t] = t := rfl
      rw [hw]
      unfold readTags
      rw [splitComma_no_comma hc]
      simp only [List.map_cons, List.map_nil, List.filter_cons, hs]
      rw [if_pos (by simpa using hne)]
      rfl
    | cons t2 rest2 =>
      rw [writeTags_cons_cons, readTags_append_comma hc hs hne,
        readTags_space_cons, ih (fun x hx => h x (List.mem_cons_of_mem _ hx))]

/-- Witness for C7 on a concrete two-tag caption. -/
theorem c7_caption_round_trip_witness :
    (∀ t ∈ [['a'], ['b', 'c']], ¬ t = [] ∧ stripChars t = t ∧ ',' ∉ t) ∧
    readTags (writeTags [['a'], ['b', 'c']]) = [['a'], ['b', 'c']] :=
  ⟨by decide, c7_caption_round_trip [['a'], ['b', 'c']] (by decide)⟩

/-- C7 counterexample: a tag containing a comma (reachable through the
add-tag input, which strips but does not split on commas) does not
survive the round trip: `["a,b"]` is written as `a,b` and read back as
`["a", "b"]`, a different tag set. -/
theorem c7_comma_tag_counterexample :
    readTags (writeTags [['a', ',', 'b']]) = [['a'], ['b']] ∧
    ¬ ['a', ',', 'b'] ∈ [[ 'a'], ['b']] := by
  refine ⟨by decide, by decide⟩
